import Mathlib

/-!
Verification development for the AI content crawler (`ai_crawler.py`).

The Python source is shallowly embedded below.  Python strings are modelled
as `List Char` (named `Str`); the relevant parts of the standard library
(`urllib.parse.urlparse`) are modelled faithfully for the inputs that occur
here (ASCII, no embedded control characters).  External collaborators
(HTTP fetches, the generative model, the search API, the file system) are
modelled as oracles: per-iteration records carrying the result each
collaborator returned, with python exceptions modelled by `Except`/`Option`
results exactly where the source catches or raises them.
-/

set_option maxRecDepth 10000

abbrev Str := List Char

/-- Convert a Lean string literal into the `List Char` representation. -/
def str (s : String) : Str := s.data

/-- ASCII lowercasing of a whole string, as Python `str.lower()` on ASCII input. -/
def lowerStr (s : Str) : Str := s.map Char.toLower

/-- Python `str.rstrip('/')`: remove every trailing slash. -/
def rstripSlash (s : Str) : Str := (s.reverse.dropWhile (fun c => c = '/')).reverse

/-- Python whitespace characters recognised by `str.strip()` / `str.split()`
(ASCII subset: space, \t, \n, \r, \v, \f). -/
def isPyWs (c : Char) : Bool :=
  c.toNat = 32 || c.toNat = 9 || c.toNat = 10 || c.toNat = 13 || c.toNat = 11 || c.toNat = 12

/-- Python `str.strip()` with no argument (strip whitespace from both ends). -/
def pyStrip (s : Str) : Str :=
  ((s.dropWhile (fun c => isPyWs c)).reverse.dropWhile (fun c => isPyWs c)).reverse

/-- Split a string at the characters in `delims`: returns the longest prefix
free of them together with the remainder (which, when nonempty, starts with a
delimiter).  Used to model `urllib`'s scans for `:`, `/`, `?`, `#`. -/
def spanNot (delims : List Char) : Str → Str × Str
  | [] => ([], [])
  | c :: cs =>
    if c ∈ delims then ([], c :: cs)
    else
      match spanNot delims cs with
      | (a, b) => (c :: a, b)

/-- Python `s.split(d, 1)` : the part before the first `d`, and (when `d`
occurs) the part after it. -/
def splitFirst (d : Char) : Str → Str × Option Str
  | [] => ([], none)
  | c :: cs =>
    if c = d then ([], some cs)
    else
      match splitFirst d cs with
      | (a, r) => (c :: a, r)

/-- Python `s.split(d)` (all occurrences, empties kept; `"".split(d) = ['']`). -/
def splitAll (d : Char) : Str → List Str
  | [] => [[]]
  | c :: cs =>
    if c = d then [] :: splitAll d cs
    else
      match splitAll d cs with
      | [] => [[c]]
      | p :: ps => (c :: p) :: ps

/-- Characters allowed in a URL scheme (`urllib.parse.scheme_chars`). -/
def isSchemeChar (c : Char) : Bool :=
  c.isAlpha || c.isDigit || c = '+' || c = '-' || c = '.'

/-- Schemes for which `urlparse` splits `;parameters` off the path
(`urllib.parse.uses_params`). -/
def uses_params : List Str :=
  [str "", str "ftp", str "hdl", str "prospero", str "http", str "imap",
   str "https", str "shttp", str "rtsp", str "rtspu", str "sip", str "sips",
   str "mms", str "sftp", str "tel"]

/-- The result of `urllib.parse.urlparse`. -/
structure ParseResult where
  scheme : Str
  netloc : Str
  path : Str
  params : Str
  query : Str
  fragment : Str
deriving Repr, DecidableEq

/-- Split a path into the part up to and including its last `/` and the part
after it (used by `_splitparams`, which searches for `;` only after the last
slash). -/
def lastSlashSplit (p : Str) : Str × Str :=
  match spanNot ['/'] p.reverse with
  | (revAfter, revBefore) => (revBefore.reverse, revAfter.reverse)

/-- `urllib.parse._splitparams`: split `;parameters` from the last path
segment. -/
def splitparams1 (p : Str) : Str × Str :=
  if '/' ∈ p then
    match splitFirst ';' (lastSlashSplit p).2 with
    | (_, none) => (p, [])
    | (a, some ps) => ((lastSlashSplit p).1 ++ a, ps)
  else
    match splitFirst ';' p with
    | (_, none) => (p, [])
    | (a, some ps) => (a, ps)

/-- Scheme extraction of `urlsplit`: `i = url.find(':')`; when `i > 0`, the
first character is alphabetic and every character before the colon is a
scheme character, the scheme is `url[:i].lower()` and the remainder
`url[i+1:]`. -/
def schemeSplit (url : Str) : Str × Str :=
  let sres := spanNot [':'] url
  if sres.2 ≠ [] ∧ sres.1 ≠ [] ∧ (sres.1.headD ' ').isAlpha ∧ sres.1.all isSchemeChar then
    (lowerStr sres.1, sres.2.tail)
  else ([], url)

/-- Netloc extraction of `urlsplit`: when the remainder starts with `//`,
`_splitnetloc` takes everything up to the next `/`, `?` or `#`. -/
def netlocSplit (rest : Str) : Str × Str :=
  if rest.take 2 = str "//" then spanNot ['/', '?', '#'] (rest.drop 2)
  else ([], rest)

/-- `s.partition(d)` restricted to the two parts around the first `d`
(the fragment and query splits of `urlsplit`). -/
def splitOpt (d : Char) (s : Str) : Str × Str :=
  match splitFirst d s with
  | (a, none) => (a, [])
  | (a, some t) => (a, t)

/-- `urllib.parse.urlparse` (via `urlsplit`): extract the scheme (validated
and lowercased), the network location when the remainder starts with `//`
(raising `ValueError` on unbalanced IPv6 brackets), then the fragment (first
`#`), the query (first `?`), and finally the `;parameters` of the last path
segment for schemes that use them. -/
def urlparse (url : Str) : Except Str ParseResult :=
  let sr := schemeSplit url
  let nr := netlocSplit sr.2
  if ('[' ∈ nr.1 ∧ ']' ∉ nr.1) ∨ (']' ∈ nr.1 ∧ '[' ∉ nr.1) then
    .error (str "Invalid IPv6 URL")
  else
    let fragSplit := splitOpt '#' nr.2
    let querySplit := splitOpt '?' fragSplit.1
    let pathParams :=
      if sr.1 ∈ uses_params ∧ ';' ∈ querySplit.1 then splitparams1 querySplit.1
      else (querySplit.1, [])
    .ok ⟨sr.1, nr.1, pathParams.1, pathParams.2, querySplit.2, fragSplit.2⟩

/-- The tracking query parameters dropped by `normalize_url` (the literal
list in the source). -/
def trackingParams : List Str :=
  [str "utm_source", str "utm_medium", str "utm_campaign", str "ref",
   str "source", str "fbclid", str "gclid"]

/-- Python dict assignment `d[k] = v`: update in place when the key exists
(keeping its position), append otherwise. -/
def dictSet : List (Str × Str) → Str → Str → List (Str × Str)
  | [], k, v => [(k, v)]
  | kv :: rest, k, v =>
    if kv.1 = k then (k, v) :: rest else kv :: dictSet rest k v

/-- The query-parameter collection loop of `normalize_url`: for each
`&`-separated piece with an `=`, split at the first `=`, drop tracking keys,
and store into the dict. -/
def collectParams : List Str → List (Str × Str) → List (Str × Str)
  | [], d => d
  | piece :: rest, d =>
    match splitFirst '=' piece with
    | (_, none) => collectParams rest d
    | (k, some v) =>
      if lowerStr k ∈ trackingParams then collectParams rest d
      else collectParams rest (dictSet d k v)

/-- Code-point comparison of strings, as Python `<` on `str`
(lexicographic on code points). -/
def strLt : Str → Str → Bool
  | [], [] => false
  | [], _ :: _ => true
  | _ :: _, [] => false
  | a :: as, b :: bs =>
    if a < b then true
    else if b < a then false
    else strLt as bs

/-- Python tuple comparison `(k1,v1) <= (k2,v2)` used by `sorted` on dict
items. -/
def pairLe (a b : Str × Str) : Prop :=
  strLt a.1 b.1 = true ∨ (a.1 = b.1 ∧ (strLt a.2 b.2 = true ∨ a.2 = b.2))

instance : DecidableRel pairLe := fun a b => by
  unfold pairLe; infer_instance

/-- Python `"&".join(...)`. -/
def joinAmp : List Str → Str
  | [] => []
  | [x] => x
  | x :: xs => x ++ '&' :: joinAmp xs

/-- Render the sorted query parameters: `"&".join(f"{k}={v}" for k, v in sorted(items))`. -/
def renderQuery (d : List (Str × Str)) : Str :=
  joinAmp ((List.insertionSort pairLe d).map (fun kv => kv.1 ++ '=' :: kv.2))

/-- `normalize_url` from the source: parse, lowercase host and path, strip
trailing slashes, rebuild the query keeping only non-tracking `k=v`
parameters sorted by key, and return the input unchanged when `urlparse`
raises. -/
def normalize_url (url : Str) : Str :=
  match urlparse url with
  | .error _ => url
  | .ok pr =>
    let netloc := lowerStr pr.netloc
    let path := rstripSlash (lowerStr pr.path)
    let query_string := renderQuery (collectParams (splitAll '&' pr.query) [])
    pr.scheme ++ str "://" ++ netloc ++ path ++
      (if query_string = [] then [] else '?' :: query_string)

example : normalize_url (str "http://Ex.COM/A/B/?b=2&utm_source=x&a=1") =
    str "http://ex.com/a/b?a=1&b=2" := by decide

example : normalize_url (str "http://a.com/p?utm_term=x&utm_source=y") =
    str "http://a.com/p?utm_term=x" := by decide

example : normalize_url (str "example.com/path") = str "://example.com/path" := by decide

example : normalize_url (str "://example.com/path") = str "://://example.com/path" := by
  decide

example : normalize_url (str "http://H/A;X/") = str "http://h/a;x" := by decide

example : normalize_url (str "http://h/a;x") = str "http://h/a" := by decide

example : urlparse (str "http://[abc/x") = .error (str "Invalid IPv6 URL") := rfl

/-! ## Content records, fingerprints and similarity -/

/-- The fields of an extracted content record that the dedup engine reads
(`content_data.get('title', '')`, `.get('summary', '')`, and the
stringified `.get('key_points', [])`). -/
structure ContentData where
  title : Str
  summary : Str
  key_points : Str
deriving Repr, DecidableEq

/-- A content fingerprint (`get_content_fingerprint`). -/
structure Fingerprint where
  title : Str
  summary_length : Nat
  summary_start : Str
  key_points_hash : Int
deriving Repr, DecidableEq

/-- `get_content_fingerprint`: lowercase the three fields, keep the first
100 characters of the summary, and hash the key points modulo 10^7.
Python's seed-randomised `hash` is a parameter `pyHash`; `%` is Python's
nonnegative modulo (`Int.emod` on a positive modulus).  The `except` branch
of the source is unreachable here: every operation in the `try` block is
total on these typed fields. -/
def get_content_fingerprint (pyHash : Str → Int) (cd : ContentData) : Fingerprint :=
  let title := lowerStr cd.title
  let summary := lowerStr cd.summary
  let key_points := lowerStr cd.key_points
  { title := title
    summary_length := summary.length
    summary_start := if summary.length > 100 then summary.take 100 else summary
    key_points_hash := (pyHash key_points) % 10000000 }

/-- Python `text.split()` (split on whitespace runs, no empty words):
the accumulating worker. -/
def splitWsGo (cur : Str) : Str → List Str
  | [] => if cur = [] then [] else [cur.reverse]
  | c :: cs =>
    if isPyWs c then
      if cur = [] then splitWsGo [] cs else cur.reverse :: splitWsGo [] cs
    else splitWsGo (c :: cur) cs

/-- Python `text.split()` with no argument. -/
def pySplitWs (s : Str) : List Str := splitWsGo [] s

/-- `calculate_text_similarity`: Jaccard similarity of the word sets of the
two texts, 0 when either set is empty.  The float division of the source is
modelled exactly in `ℚ`; for the word-set sizes arising here the float and
rational comparisons against the 0.7 threshold agree. -/
def calculate_text_similarity (t1 t2 : Str) : ℚ :=
  if (pySplitWs t1).toFinset = ∅ ∨ (pySplitWs t2).toFinset = ∅ then 0
  else (((pySplitWs t1).toFinset ∩ (pySplitWs t2).toFinset).card : ℚ) /
    (((pySplitWs t1).toFinset ∪ (pySplitWs t2).toFinset).card : ℚ)

/-- `self.similarity_threshold` (0.7, set in `__init__` and never changed). -/
def similarity_threshold : ℚ := 7 / 10

/-- Python's substring test `a in b` on strings (list infix). -/
def strIn (needle hay : Str) : Bool := decide (needle <:+: hay)

/-- One round of the comparison loop in `is_similar_content` against a
single stored fingerprint `ex`: the sequence of early-`return True` tests
(identical title, mutual title containment for titles longer than 20,
summary-prefix similarity above the threshold when both prefixes are longer
than 50, identical key-points hash), as a disjunction. -/
def fingerprintSimilar (ex nf : Fingerprint) : Bool :=
  (decide (ex.title ≠ []) && decide (nf.title ≠ []) &&
    (decide (ex.title = nf.title) ||
      (decide (ex.title.length > 20) && decide (nf.title.length > 20) &&
        (strIn ex.title nf.title || strIn nf.title ex.title))))
  || (decide (ex.summary_start ≠ []) && decide (nf.summary_start ≠ []) &&
      decide (ex.summary_start.length > 50) && decide (nf.summary_start.length > 50) &&
      decide (calculate_text_similarity ex.summary_start nf.summary_start > similarity_threshold))
  || decide (ex.key_points_hash = nf.key_points_hash)

/-- `is_similar_content`: fingerprint the new record and scan every stored
fingerprint, returning `True` on the first triggered test (the loop with
early returns is the `List.any` of the per-fingerprint disjunction).  The
`except` branch is unreachable on these typed records. -/
def is_similar_content (pyHash : Str → Int) (fingerprints : List Fingerprint)
    (cd : ContentData) : Bool :=
  let nf := get_content_fingerprint pyHash cd
  fingerprints.any (fun ex => fingerprintSimilar ex nf)

/-! ## Domain quota -/

/-- Python `self.domain_counts.get(domain, 0)` on the assoc-list model of the
dict (keys are unique, so first match is the match). -/
def lookupCount : List (Str × Nat) → Str → Nat
  | [], _ => 0
  | kv :: rest, d => if kv.1 = d then kv.2 else lookupCount rest d

/-- Python `self.domain_counts[domain] = self.domain_counts.get(domain, 0) + 1`. -/
def bumpDomain : List (Str × Nat) → Str → List (Str × Nat)
  | [], d => [(d, 1)]
  | kv :: rest, d =>
    if kv.1 = d then (kv.1, kv.2 + 1) :: rest else kv :: bumpDomain rest d

/-- `check_domain_quota`: reject when the lowercased host already has
`max_per_domain` accepted items; on any exception inside the `try`
(here: `urlparse` raising) the `except` branch returns `True`. -/
def check_domain_quota (counts : List (Str × Nat)) (maxPerDomain : Nat) (url : Str) : Bool :=
  match urlparse url with
  | .error _ => true
  | .ok pr =>
    let domain := lowerStr pr.netloc
    if lookupCount counts domain ≥ maxPerDomain then false else true

/-! ## Rate-limited API calls -/

/-- The rate-limit test of `api_call_with_backoff`:
`"429" in error_str or "exceeded your current quota" in error_str`. -/
def isRateLimitError (e : Str) : Bool :=
  strIn (str "429") e || strIn (str "exceeded your current quota") e

/-- The retry loop of `api_call_with_backoff`.  `attempts n` is the outcome
of the `n`-th invocation of the wrapped callable (a value, or the message of
the exception it raised).  `remaining` is `max_retries - retries`;
`backoff` and `backoff_time` mirror the local variable and the
`self.backoff_time` field.  Result: the Python return value (`some` result,
or `none` for the unreachable fall-through `return None`) or the re-raised
exception, together with the list of sleep durations (seconds) performed by
`time.sleep` inside the loop, and the final value of `self.backoff_time`. -/
def api_call_go {α : Type} (attempts : Nat → Except Str α) :
    Nat → Nat → Nat → Nat → Except Str (Option α) × List Nat × Nat
  | 0, _, _, backoff_time => (.ok none, [], backoff_time)
  | remaining + 1, idx, backoff, backoff_time =>
    match attempts idx with
    | .ok v => (.ok (some v), [], 5)
    | .error e =>
      if isRateLimitError e then
        let bt := min (backoff_time * 2) 60
        if remaining = 0 then (.error e, [backoff], bt)
        else
          match api_call_go attempts remaining (idx + 1) bt bt with
          | (res, sleeps, btf) => (res, backoff :: sleeps, btf)
      else
        if remaining = 0 then (.error e, [5], backoff_time)
        else
          match api_call_go attempts remaining (idx + 1) backoff backoff_time with
          | (res, sleeps, btf) => (res, 5 :: sleeps, btf)

/-- `api_call_with_backoff` (the retry loop; the inter-call spacing sleep at
the top depends on the wall clock and is not part of the retry behaviour
specified).  `max_retries = 5`; the initial `backoff` is the current
`self.backoff_time`. -/
def api_call_with_backoff {α : Type} (attempts : Nat → Except Str α)
    (backoff_time : Nat) : Except Str (Option α) × List Nat × Nat :=
  api_call_go attempts 5 0 backoff_time backoff_time

example :
    (api_call_with_backoff (fun _ => (.error (str "429 rate limit") : Except Str Str)) 5).2.1 =
      [5, 10, 20, 40, 60] := by decide

/-! ## Relevance classification -/

/-- `is_relevant_content`: the whole body sits in a `try` whose `except`
returns `False`.  `gen` is the outcome of the
`api_call_with_backoff(self.model.generate_content, prompt)` call inside the
`try` (the only fallible operation on this model); on success the verdict is
`response.text.strip().lower().startswith("yes")`. -/
def is_relevant_content (gen : Except Str Str) : Except Str Bool :=
  match gen with
  | .ok t => .ok ((str "yes").isPrefixOf (lowerStr (pyStrip t)))
  | .error _ => .ok false

/-! ## The crawl orchestrator (`crawl_for_content`) -/

/-- Run parameters: the two CLI limits, the per-domain cap and topic/year
entered interactively, and the (seed-randomised) Python string hash. -/
structure CrawlConfig where
  max_per_domain : Nat
  max_content : Nat
  max_pages : Nat
  topic : Str
  year : Str
  pyHash : Str → Int

/-- The outcomes of the external collaborators for one loop iteration:
`fetch` is `fetch_url` (indexed by the URL it is given; `none` models the
swallowed request exception — `requests` refuses any URL that `urlparse`
cannot parse, so a `some` result implies a parseable URL); `relevantGen` the
generative call inside `is_relevant_content`; `extractResult` the value of
`extract_content_data` (`none` for its error path); `saveResult` the
filepath of `save_content_data` (`none` for its error path);
`relatedTerms`, `moreLinks` and `searchResults` the list results of
`extract_related_search_terms`, `find_more_links_on_page` and
`search_for_content` (all of which return `[]`/fallback values on their
internal failures). -/
structure Oracle where
  fetch : Str → Option Str
  relevantGen : Except Str Str
  extractResult : Option ContentData
  saveResult : Option Str
  relatedTerms : List Str
  moreLinks : List Str
  searchResults : List Str

/-- The `stats` dict of `crawl_for_content`. -/
structure CrawlStats where
  search_queries_used : Nat
  pages_visited : Nat
  content_found : Nat
  errors : Nat
  duplicates_skipped : Nat
  similar_content_skipped : Nat
  domain_quota_exceeded : Nat
deriving Repr, DecidableEq

/-- The mutable state of one crawl run.  The Python sets `normalized_urls`,
`visited_urls` and `content_urls` are modelled as duplicate-free lists
(every insertion in the source is guarded so that the element is new, so
membership is the same).  `dispatched` and `issued_queries` are observation
traces: the URLs for which a fetch was dispatched (recorded at the
`pages_visited` increment) and the query texts handed to
`search_for_content` (recorded at the `search_queries_used` increment). -/
structure CrawlState where
  stats : CrawlStats
  search_queue : List Str
  content_url_queue : List Str
  search_queries : List Str
  normalized_urls : List Str
  visited_urls : List Str
  content_urls : List Str
  domain_counts : List (Str × Nat)
  content_fingerprints : List Fingerprint
  dispatched : List Str
  issued_queries : List Str

/-- The related-search-terms push loop after an accept:
`if term not in search_queue and not any(term == q for q in search_queries):
search_queue.append(term)`.  Note the history list `search_queries` is NOT
extended. -/
def pushRelatedTerms (terms : List Str) (search_queue search_queries : List Str) :
    List Str :=
  terms.foldl
    (fun q term => if term ∈ q ∨ term ∈ search_queries then q else q ++ [term])
    search_queue

/-- The `find_more_links_on_page` push loop: queue a link unless its
normalization was already seen or the raw link is already queued. -/
def pushMoreLinks (links : List Str) (queue normSet : List Str) : List Str :=
  links.foldl
    (fun q link => if normalize_url link ∈ normSet ∨ link ∈ q then q else q ++ [link])
    queue

/-- The search-result push loop: queue a result URL unless already visited
(raw) or already queued. -/
def pushSearchResults (urls : List Str) (queue visited : List Str) : List Str :=
  urls.foldl (fun q u => if u ∈ visited ∨ u ∈ q then q else q ++ [u]) queue

/-- The five seed query variants generated from the topic. -/
def seedQueries (topic year : Str) : List Str :=
  [topic,
   str "latest " ++ topic ++ ' ' :: year,
   topic ++ str " recent developments",
   topic ++ str " recent research",
   topic ++ str " updated " ++ year]

/-- The "deepen" expansion batch (injected when some content was found). -/
def deepenQueries (topic : Str) : List Str :=
  [topic ++ str " key insights",
   str "important information about " ++ topic,
   topic ++ str " complete guide",
   str "what you need to know about " ++ topic]

/-- The "broaden" expansion batch (injected when nothing was found yet). -/
def broadenQueries (topic : Str) : List Str :=
  [topic ++ str " overview",
   str "introduction to " ++ topic,
   str "basics of " ++ topic,
   topic ++ str " for beginners"]

/-- The expansion push loop: each query is appended to both the queue and
the history unless already in the history. -/
def pushExpansion (qs : List Str) (queue hist : List Str) : List Str × List Str :=
  qs.foldl
    (fun acc q => if q ∈ acc.2 then acc else (acc.1 ++ [q], acc.2 ++ [q]))
    (queue, hist)

/-- Processing of one popped candidate URL (the queue has already been
popped into `s`).  The returned flag records whether the Python path ended
in `continue` (which skips the end-of-iteration limit check and expansion
block).  The `try` at the extraction site can only be left early by the
`urlparse` call of the domain-count update; every other callee catches its
own exceptions. -/
def processCandidate (cfg : CrawlConfig) (o : Oracle) (s : CrawlState) (url : Str) :
    CrawlState × Bool :=
  let nurl := normalize_url url
  if nurl ∈ s.normalized_urls then
    ({ s with stats := { s.stats with duplicates_skipped := s.stats.duplicates_skipped + 1 } },
     true)
  else if check_domain_quota s.domain_counts cfg.max_per_domain url = false then
    ({ s with stats := { s.stats with domain_quota_exceeded := s.stats.domain_quota_exceeded + 1 } },
     true)
  else
    let s1 := { s with
      normalized_urls := s.normalized_urls ++ [nurl]
      visited_urls := s.visited_urls ++ [url]
      dispatched := s.dispatched ++ [url]
      stats := { s.stats with pages_visited := s.stats.pages_visited + 1 } }
    match o.fetch url with
    | none => ({ s1 with stats := { s1.stats with errors := s1.stats.errors + 1 } }, true)
    | some _html =>
      match is_relevant_content o.relevantGen with
      | .error _ =>
        ({ s1 with stats := { s1.stats with errors := s1.stats.errors + 1 } }, true)
      | .ok false => (s1, false)
      | .ok true =>
        match o.extractResult with
        | none => (s1, false)
        | some cd =>
          if is_similar_content cfg.pyHash s1.content_fingerprints cd then
            ({ s1 with stats :=
                { s1.stats with similar_content_skipped := s1.stats.similar_content_skipped + 1 } },
             true)
          else
            match o.saveResult with
            | none =>
              ({ s1 with content_url_queue :=
                  pushMoreLinks o.moreLinks s1.content_url_queue s1.normalized_urls },
               false)
            | some _fp =>
              let s2 := { s1 with
                content_urls := s1.content_urls ++ [url]
                stats := { s1.stats with content_found := s1.stats.content_found + 1 } }
              match urlparse url with
              | .error _ =>
                ({ s2 with stats := { s2.stats with errors := s2.stats.errors + 1 } }, false)
              | .ok pr =>
                let s3 := { s2 with
                  domain_counts := bumpDomain s2.domain_counts (lowerStr pr.netloc)
                  content_fingerprints :=
                    s2.content_fingerprints ++ [get_content_fingerprint cfg.pyHash cd] }
                let s4 := { s3 with
                  search_queue := pushRelatedTerms o.relatedTerms s3.search_queue s3.search_queries }
                ({ s4 with content_url_queue :=
                    pushMoreLinks o.moreLinks s4.content_url_queue s4.normalized_urls },
                 false)

/-- Processing of one popped search query (the queue has already been
popped into `s`). -/
def processSearch (o : Oracle) (s : CrawlState) (q : Str) : CrawlState :=
  let s1 := { s with
    stats := { s.stats with search_queries_used := s.stats.search_queries_used + 1 }
    issued_queries := s.issued_queries ++ [q] }
  { s1 with content_url_queue :=
      pushSearchResults o.searchResults s1.content_url_queue s1.visited_urls }

/-- End of loop body: the mid-loop `break` when a limit is reached
(leaving the state untouched), otherwise the expansion block when both
queues are empty. -/
def afterBody (cfg : CrawlConfig) (s : CrawlState) : CrawlState :=
  if s.stats.content_found ≥ cfg.max_content ∨ s.stats.pages_visited ≥ cfg.max_pages then s
  else if s.search_queue = [] ∧ s.content_url_queue = [] then
    if s.stats.content_found > 0 then
      let qh := pushExpansion (deepenQueries cfg.topic) s.search_queue s.search_queries
      { s with search_queue := qh.1, search_queries := qh.2 }
    else
      let qh := pushExpansion (broadenQueries cfg.topic) s.search_queue s.search_queries
      { s with search_queue := qh.1, search_queries := qh.2 }
  else s

/-- One iteration of the main `while` body: candidate URLs take priority
over search queries; a `continue`d path skips `afterBody`. -/
def crawlStep (cfg : CrawlConfig) (o : Oracle) (s : CrawlState) : CrawlState :=
  match s.content_url_queue with
  | url :: rest =>
    match processCandidate cfg o { s with content_url_queue := rest } url with
    | (s1, true) => s1
    | (s1, false) => afterBody cfg s1
  | [] =>
    match s.search_queue with
    | q :: rest => afterBody cfg (processSearch o { s with search_queue := rest } q)
    | [] => s

/-- The initial crawl state (zeroed stats, seed queries in both the queue
and the history, everything else empty). -/
def initState (cfg : CrawlConfig) : CrawlState :=
  { stats := ⟨0, 0, 0, 0, 0, 0, 0⟩
    search_queue := seedQueries cfg.topic cfg.year
    content_url_queue := []
    search_queries := seedQueries cfg.topic cfg.year
    normalized_urls := []
    visited_urls := []
    content_urls := []
    domain_counts := []
    content_fingerprints := []
    dispatched := []
    issued_queries := [] }

/-- The main crawl loop of `crawl_for_content`, driven by the per-iteration
oracle list (a run performs at most as many iterations as there are
oracles; the loop guard is re-evaluated before each iteration exactly as in
the source `while`). -/
def crawl_for_content (cfg : CrawlConfig) : List Oracle → CrawlState → CrawlState
  | [], s => s
  | o :: os, s =>
    if s.stats.pages_visited < cfg.max_pages ∧ s.stats.content_found < cfg.max_content ∧
        (s.search_queue ≠ [] ∨ s.content_url_queue ≠ []) then
      crawl_for_content cfg os (crawlStep cfg o s)
    else s

/-! ## Claim C10: the domain-quota gate fails open -/

/-- C10: if extracting the lowercased host inside `check_domain_quota`
raises (the `urlparse` call fails), the `except` branch returns `True`, so
the URL is admitted past the quota check, and the quota-exceeded counter of
the crawl loop is not incremented for it on any path. -/
theorem claim_C10_quota_fails_open (counts : List (Str × Nat)) (maxPerDomain : Nat)
    (url : Str) (e : Str) (h : urlparse url = .error e) :
    check_domain_quota counts maxPerDomain url = true ∧
    ∀ cfg o s, cfg.max_per_domain = maxPerDomain →
      (processCandidate cfg o s url).1.stats.domain_quota_exceeded =
        s.stats.domain_quota_exceeded := by
  have hq : check_domain_quota counts maxPerDomain url = true := by
    unfold check_domain_quota; rw [h]
  refine ⟨hq, ?_⟩
  intro cfg o s hmax
  have hq2 : check_domain_quota s.domain_counts cfg.max_per_domain url = true := by
    unfold check_domain_quota; rw [h]
  simp only [processCandidate, hq2]
  repeat' split
  all_goals try rfl
  all_goals exact absurd ‹true = false› (by decide)

/-- Witness for C10: a URL with an unbalanced IPv6 bracket; even a domain
count far above the cap is admitted because the `try` fails. -/
theorem claim_C10_witness :
    check_domain_quota [(str "a.com", 99)] 0 (str "http://[a/b") = true :=
  (claim_C10_quota_fails_open [(str "a.com", 99)] 0 (str "http://[a/b")
    (str "Invalid IPv6 URL") rfl).1

/-! ## Claim C2: the backoff sleep sequence -/

/-- Attempts for the C2 counterexample: six rate-limit failures are
available (a seventh call would even succeed), so any shortfall in the
observed sleep sequence is due to the retry ceiling alone. -/
def c2Attempts : Nat → Except Str Str := fun i =>
  if i < 6 then .error (str "429 Resource has been exhausted") else .ok (str "ok")

/-- C2 counterexample: with every attempt failing with a 429 error and the
backoff floor 5 / ceiling 60, the loop makes only 5 attempts and sleeps
5, 10, 20, 40, 60 — not the claimed 5, 10, 20, 40, 60, 60 — before
re-raising the fifth error. -/
theorem claim_C2_counterexample :
    (api_call_with_backoff c2Attempts 5).2.1 = [5, 10, 20, 40, 60] ∧
    (api_call_with_backoff c2Attempts 5).2.1 ≠ [5, 10, 20, 40, 60, 60] ∧
    (api_call_with_backoff c2Attempts 5).1 =
      .error (str "429 Resource has been exhausted") := by
  refine ⟨by decide, by decide, rfl⟩

/-- C2 amended: on 5 consecutive rate-limit failures with backoff floor 5
and ceiling 60, the retry budget is exhausted after the sleep sequence
5, 10, 20, 40, 60, and the fifth attempt's exception is re-raised to the
caller (the source has no dedicated `ExternalServiceError` type — the
original exception propagates). -/
theorem claim_C2_rate_limit_exhaustion {α : Type} (attempts : Nat → Except Str α)
    (h : ∀ i, i < 5 → ∃ e, attempts i = .error e ∧ isRateLimitError e = true) :
    (api_call_with_backoff attempts 5).2.1 = [5, 10, 20, 40, 60] ∧
    ∃ e, attempts 4 = .error e ∧ (api_call_with_backoff attempts 5).1 = .error e := by
  obtain ⟨e0, he0, hr0⟩ := h 0 (by omega)
  obtain ⟨e1, he1, hr1⟩ := h 1 (by omega)
  obtain ⟨e2, he2, hr2⟩ := h 2 (by omega)
  obtain ⟨e3, he3, hr3⟩ := h 3 (by omega)
  obtain ⟨e4, he4, hr4⟩ := h 4 (by omega)
  unfold api_call_with_backoff
  simp only [api_call_go, he0, he1, he2, he3, he4, hr0, hr1, hr2, hr3, hr4, if_true]
  norm_num

/-- Witness for C2 (amended): a concrete always-429 attempt stream
satisfies the hypothesis and produces the 5, 10, 20, 40, 60 sequence. -/
theorem claim_C2_witness :
    (api_call_with_backoff (fun _ => (.error (str "429") : Except Str Str)) 5).2.1 =
      [5, 10, 20, 40, 60] :=
  (claim_C2_rate_limit_exhaustion (fun _ => (.error (str "429") : Except Str Str))
    (fun _i _ => ⟨str "429", rfl, by decide⟩)).1

/-! ## Claim C7: summary-prefix similarity as a duplicate test -/

/-- A concrete stand-in for Python's seed-randomised string hash (any
function would do; this one separates the concrete key-point strings used
below). -/
def lenHash : Str → Int := fun s => Int.ofNat s.length

/-- Stored record for the C7 counterexample (summary well under 50
characters). -/
def c7Stored : ContentData := ⟨str "a", str "same short summary", str "k1"⟩

/-- New record for the C7 counterexample: identical summary (Jaccard 1),
different short title, different key points. -/
def c7New : ContentData := ⟨str "b", str "same short summary", str "k22"⟩

/-- C7 counterexample: the summary-prefix Jaccard similarity is 1 > 0.7,
yet `is_similar_content` returns `False`, because the summary test also
requires both stored prefixes to be longer than 50 characters.  Similarity
above the threshold is therefore not by itself sufficient. -/
theorem claim_C7_counterexample :
    calculate_text_similarity (get_content_fingerprint lenHash c7Stored).summary_start
        (get_content_fingerprint lenHash c7New).summary_start > similarity_threshold ∧
    is_similar_content lenHash [get_content_fingerprint lenHash c7Stored] c7New = false := by
  constructor
  · unfold calculate_text_similarity
    rw [if_neg (by decide)]
    rw [show (((pySplitWs (get_content_fingerprint lenHash c7Stored).summary_start).toFinset ∩
        (pySplitWs (get_content_fingerprint lenHash c7New).summary_start).toFinset).card) = 3
      from by decide]
    rw [show (((pySplitWs (get_content_fingerprint lenHash c7Stored).summary_start).toFinset ∪
        (pySplitWs (get_content_fingerprint lenHash c7New).summary_start).toFinset).card) = 3
      from by decide]
    norm_num [similarity_threshold]
  · decide

/-- C7 amended: summary-prefix Jaccard similarity strictly above the 0.7
threshold is sufficient for `is_similar_content` to declare a duplicate
provided both summary prefixes are longer than 50 characters. -/
theorem claim_C7_similarity_sufficient (pyHash : Str → Int) (fps : List Fingerprint)
    (cd : ContentData) (ex : Fingerprint) (hmem : ex ∈ fps)
    (hl1 : ex.summary_start.length > 50)
    (hl2 : (get_content_fingerprint pyHash cd).summary_start.length > 50)
    (hsim : calculate_text_similarity ex.summary_start
        (get_content_fingerprint pyHash cd).summary_start > similarity_threshold) :
    is_similar_content pyHash fps cd = true := by
  unfold is_similar_content
  rw [List.any_eq_true]
  refine ⟨ex, hmem, ?_⟩
  have h1 : ex.summary_start ≠ [] := by
    intro hc; rw [hc] at hl1; simp at hl1
  have h2 : (get_content_fingerprint pyHash cd).summary_start ≠ [] := by
    intro hc; rw [hc] at hl2; simp at hl2
  unfold fingerprintSimilar
  have : (decide (ex.summary_start ≠ []) &&
      decide ((get_content_fingerprint pyHash cd).summary_start ≠ []) &&
      decide (ex.summary_start.length > 50) &&
      decide ((get_content_fingerprint pyHash cd).summary_start.length > 50) &&
      decide (calculate_text_similarity ex.summary_start
        (get_content_fingerprint pyHash cd).summary_start > similarity_threshold)) = true := by
    simp [h1, h2, hl1, hl2, hsim]
  rw [this]
  simp

/-- Stored record for the C7 witness, with a 59-character summary. -/
def c7wStored : ContentData :=
  ⟨str "first title", str "aaaa bbbb cccc dddd eeee ffff gggg hhhh iiii jjjj kkkk llll",
   str "k1"⟩

/-- New record for the C7 witness: same long summary, different title and
key points. -/
def c7wNew : ContentData :=
  ⟨str "second title", str "aaaa bbbb cccc dddd eeee ffff gggg hhhh iiii jjjj kkkk llll",
   str "k2"⟩

/-- Witness for C7 (amended): with both prefixes longer than 50 characters
and Jaccard similarity 1, the record is declared similar. -/
theorem claim_C7_witness :
    is_similar_content lenHash [get_content_fingerprint lenHash c7wStored] c7wNew = true :=
  claim_C7_similarity_sufficient lenHash _ c7wNew (get_content_fingerprint lenHash c7wStored)
    (by simp) (by decide) (by decide)
    (by
      unfold calculate_text_similarity
      rw [if_neg (by decide)]
      rw [show (((pySplitWs (get_content_fingerprint lenHash c7wStored).summary_start).toFinset ∩
          (pySplitWs (get_content_fingerprint lenHash c7wNew).summary_start).toFinset).card) = 12
        from by decide]
      rw [show (((pySplitWs (get_content_fingerprint lenHash c7wStored).summary_start).toFinset ∪
          (pySplitWs (get_content_fingerprint lenHash c7wNew).summary_start).toFinset).card) = 12
        from by decide]
      norm_num [similarity_threshold])

/-! ## Claim C1: failure propagation out of the crawl loop -/

/-- C1 amended (core): `is_relevant_content` catches every exception of its
body — including the exception re-raised by `api_call_with_backoff` when
the retry budget is exhausted — and returns `False`; the failure is handled
as a not-relevant verdict and never propagates. -/
theorem claim_C1_relevance_error_swallowed (e : Str) :
    is_relevant_content (Except.error e) = Except.ok false := rfl

/-- Crawl configuration for the C1 counterexample run. -/
def c1cfg : CrawlConfig := ⟨5, 100, 100, str "t", str "2025", lenHash⟩

/-- An iteration oracle whose only effect is returning search results. -/
def oSearch (rs : List Str) : Oracle :=
  { fetch := fun _ => none, relevantGen := .ok [], extractResult := none,
    saveResult := none, relatedTerms := [], moreLinks := [], searchResults := rs }

/-- The retry-exhaustion error raised inside `is_relevant_content`. -/
def c1err : Str := str "429 You exceeded your current quota"

/-- An iteration oracle for a candidate page whose relevance call raises
after retry exhaustion. -/
def oRelevantError : Oracle :=
  { fetch := fun _ => some (str "<html>"), relevantGen := .error c1err,
    extractResult := none, saveResult := none, relatedTerms := [], moreLinks := [],
    searchResults := [] }

/-- The oracle trace for the C1 counterexample: a search, a page whose
relevance call exhausts its retries, another search, and another such
page. -/
def c1oracles : List Oracle :=
  [oSearch [str "http://a.com/1"], oRelevantError,
   oSearch [str "http://b.com/2"], oRelevantError]

/-- C1 counterexample: a generative call inside `is_relevant_content` that
raises after retry exhaustion does NOT propagate out of
`crawl_for_content`: the run continues past the failing page (a second
page is still visited) and the failure is not even counted as an error —
contradicting the claim that this condition unwinds and aborts the crawl. -/
theorem claim_C1_counterexample :
    is_relevant_content (Except.error c1err) = Except.ok false ∧
    (crawl_for_content c1cfg c1oracles (initState c1cfg)).stats.pages_visited = 2 ∧
    (crawl_for_content c1cfg c1oracles (initState c1cfg)).stats.errors = 0 := by
  refine ⟨rfl, by decide, by decide⟩

/-! ## Claim C8: query dedup on push -/

/-- C8 amended (guard): a related search term is appended to the queue iff
it is neither currently pending in `search_queue` nor present in the
`search_queries` list (the seed/expansion history); that list — not the
set of previously issued queries — is the dedup reference, and the push
never extends it. -/
theorem claim_C8_push_guard (t : Str) (queue hist : List Str) :
    pushRelatedTerms [t] queue hist =
      (if t ∈ queue ∨ t ∈ hist then queue else queue ++ [t]) := by
  unfold pushRelatedTerms
  simp [List.foldl]

/-- An iteration oracle for a candidate page that is accepted and yields
the given related search terms. -/
def oAccept (cd : ContentData) (related : List Str) : Oracle :=
  { fetch := fun _ => some (str "<html>"), relevantGen := .ok (str "yes"),
    extractResult := some cd, saveResult := some (str "f"), relatedTerms := related,
    moreLinks := [], searchResults := [] }

/-- First accepted record of the C8 counterexample run. -/
def c8cd1 : ContentData := ⟨str "t1", str "s1", str "k1"⟩

/-- Second accepted record of the C8 counterexample run (distinct title,
summary and key points, so it is not flagged as similar). -/
def c8cd2 : ContentData := ⟨str "t2", str "s2", str "k22"⟩

/-- Crawl configuration for the C8 counterexample run. -/
def c8cfg : CrawlConfig := ⟨5, 100, 100, str "t", str "2025", lenHash⟩

/-- Oracle trace for the C8 counterexample: an accept pushes related term
"q"; after the four remaining seed queries drain, "q" is searched; a second
accept pushes "q" again (it is in neither the pending queue nor
`search_queries`), and it is searched a second time. -/
def c8oracles : List Oracle :=
  [oSearch [str "http://a.com/1"],
   oAccept c8cd1 [str "q"],
   oSearch [], oSearch [], oSearch [], oSearch [],
   oSearch [str "http://b.com/2"],
   oAccept c8cd2 [str "q"],
   oSearch []]

/-- C8 counterexample: the related search term "q" is issued to the search
collaborator twice in one run — the query text was searched twice even
though it already existed verbatim among previously issued queries,
contradicting the claim. -/
theorem claim_C8_counterexample :
    ((crawl_for_content c8cfg c8oracles (initState c8cfg)).issued_queries.count (str "q")) =
      2 := by
  decide

/-! ## Run induction helpers and field-preservation lemmas -/

theorem bool_eq_true_of_ne_false {b : Bool} (h : ¬ b = false) : b = true := by
  cases b
  · exact absurd rfl h
  · rfl

theorem run_invariant (cfg : CrawlConfig) (P : CrawlState → Prop)
    (hstep : ∀ o s, P s → P (crawlStep cfg o s)) :
    ∀ os s, P s → P (crawl_for_content cfg os s)
  | [], _, h => h
  | o :: os, s, h => by
    unfold crawl_for_content
    split
    · exact run_invariant cfg P hstep os _ (hstep o s h)
    · exact h

theorem run_invariant_cond (cfg : CrawlConfig) (P : CrawlState → Prop) (Q : Oracle → Prop)
    (hstep : ∀ o s, Q o → P s → P (crawlStep cfg o s)) :
    ∀ os s, (∀ o ∈ os, Q o) → P s → P (crawl_for_content cfg os s)
  | [], _, _, h => h
  | o :: os, s, hq, h => by
    unfold crawl_for_content
    split
    · exact run_invariant_cond cfg P Q hstep os _
        (fun o2 ho2 => hq o2 (List.mem_cons_of_mem _ ho2))
        (hstep o s (hq o (List.mem_cons_self _ _)) h)
    · exact h

theorem afterBody_preserve (cfg : CrawlConfig) (s : CrawlState) :
    (afterBody cfg s).stats = s.stats ∧
    (afterBody cfg s).domain_counts = s.domain_counts ∧
    (afterBody cfg s).content_fingerprints = s.content_fingerprints ∧
    (afterBody cfg s).dispatched = s.dispatched ∧
    (afterBody cfg s).normalized_urls = s.normalized_urls := by
  unfold afterBody
  repeat' split
  all_goals exact ⟨rfl, rfl, rfl, rfl, rfl⟩

theorem processSearch_preserve (o : Oracle) (s : CrawlState) (q : Str) :
    (processSearch o s q).stats.content_found = s.stats.content_found ∧
    (processSearch o s q).domain_counts = s.domain_counts ∧
    (processSearch o s q).content_fingerprints = s.content_fingerprints ∧
    (processSearch o s q).dispatched = s.dispatched ∧
    (processSearch o s q).normalized_urls = s.normalized_urls :=
  ⟨rfl, rfl, rfl, rfl, rfl⟩

theorem lookupCount_bumpDomain (counts : List (Str × Nat)) (dom d : Str) :
    lookupCount (bumpDomain counts dom) d =
      if d = dom then lookupCount counts dom + 1 else lookupCount counts d := by
  induction counts with
  | nil =>
    simp only [bumpDomain, lookupCount]
    by_cases hd : d = dom
    · rw [if_pos hd.symm, if_pos hd]
    · rw [if_neg (fun hh => hd hh.symm), if_neg hd]
  | cons kv rest ih =>
    simp only [bumpDomain]
    by_cases h1 : kv.1 = dom
    · rw [if_pos h1]
      simp only [lookupCount]
      by_cases hd : d = dom
      · subst hd
        rw [if_pos h1, if_pos rfl, if_pos h1]
      · have h2 : ¬ kv.1 = d := fun hh => hd (hh ▸ h1)
        rw [if_neg h2, if_neg hd, if_neg h2]
    · rw [if_neg h1]
      simp only [lookupCount, ih]
      by_cases h2 : kv.1 = d
      · have hd : ¬ d = dom := fun hh => h1 (h2.trans hh)
        rw [if_pos h2, if_neg hd, if_pos h2]
      · by_cases hd : d = dom
        · rw [if_neg h2, if_pos hd, if_pos hd, if_neg (fun hh => h2 (hh.trans hd.symm))]
        · rw [if_neg h2, if_neg hd, if_neg hd, if_neg h2]

/-! ## Claim C3: the per-domain quota invariant -/

/-- The possible effects of one candidate-processing step on the domain
counters: either unchanged, or (when the quota check admitted the URL and
its host parses) the single increment of that host's counter. -/
theorem processCandidate_domain_counts (cfg : CrawlConfig) (o : Oracle) (s : CrawlState)
    (url : Str) :
    (processCandidate cfg o s url).1.domain_counts = s.domain_counts ∨
    (check_domain_quota s.domain_counts cfg.max_per_domain url = true ∧
      ∃ pr, urlparse url = .ok pr ∧
        (processCandidate cfg o s url).1.domain_counts =
          bumpDomain s.domain_counts (lowerStr pr.netloc)) := by
  simp only [processCandidate]
  repeat' split
  all_goals try exact Or.inl rfl
  rename_i pr hpr
  refine Or.inr ⟨bool_eq_true_of_ne_false (by assumption), pr, hpr, rfl⟩

theorem crawlStep_quota (cfg : CrawlConfig) (o : Oracle) (s : CrawlState)
    (h : ∀ d, lookupCount s.domain_counts d ≤ cfg.max_per_domain) :
    ∀ d, lookupCount (crawlStep cfg o s).domain_counts d ≤ cfg.max_per_domain := by
  intro d
  have key : ∀ url s2, s2.domain_counts = s.domain_counts →
      lookupCount (processCandidate cfg o s2 url).1.domain_counts d ≤ cfg.max_per_domain := by
    intro url s2 hs2
    have hpc := processCandidate_domain_counts cfg o s2 url
    rcases hpc with hsame | ⟨hck, pr, hpr, hbump⟩
    · rw [hsame, hs2]; exact h d
    · rw [hbump, hs2, lookupCount_bumpDomain]
      unfold check_domain_quota at hck
      rw [hpr, hs2] at hck
      dsimp only at hck
      by_cases hge : lookupCount s.domain_counts (lowerStr pr.netloc) ≥ cfg.max_per_domain
      · rw [if_pos hge] at hck
        exact absurd hck (by decide)
      · split
        · rename_i hd
          subst hd
          omega
        · exact h d
  unfold crawlStep
  split
  · rename_i url rest hq
    split
    · rename_i s1 heqp
      have hk := key url { s with content_url_queue := rest } rfl
      rw [heqp] at hk
      exact hk
    · rename_i s1 heqp
      rw [(afterBody_preserve cfg s1).2.1]
      have hk := key url { s with content_url_queue := rest } rfl
      rw [heqp] at hk
      exact hk
  · split
    · rename_i q rest hq2
      rw [(afterBody_preserve cfg _).2.1, (processSearch_preserve o _ q).2.1]
      exact h d
    · exact h d

/-- C3: for every domain, after any crawl run from the initial state, the
domain counter never exceeds `max_per_domain`: `check_domain_quota` rejects
a candidate whose (parsed, lowercased) host already reached the cap, the
counter is bumped by exactly one only on a durably saved record, and it is
never decremented. -/
theorem claim_C3_domain_quota_invariant (cfg : CrawlConfig) (os : List Oracle) (d : Str) :
    lookupCount (crawl_for_content cfg os (initState cfg)).domain_counts d ≤
      cfg.max_per_domain := by
  exact run_invariant cfg
    (fun s => ∀ d2, lookupCount s.domain_counts d2 ≤ cfg.max_per_domain)
    (fun o s h => crawlStep_quota cfg o s h) os (initState cfg)
    (fun d2 => by simp [initState, lookupCount]) d

/-! ## Claim C4: no normalized URL is dispatched twice -/

/-- The run invariant behind C4: all dispatched URLs have pairwise distinct
normalizations, and every dispatched URL's normalization has been recorded
in the visited set of normalized URLs. -/
def NoRedispatch (s : CrawlState) : Prop :=
  s.dispatched.Pairwise (fun a b => normalize_url a ≠ normalize_url b) ∧
  ∀ u ∈ s.dispatched, normalize_url u ∈ s.normalized_urls

/-- Effect of one candidate-processing step on the dispatch trace and the
normalized-URL set: either both untouched (skip paths), or — only when the
normalization was not yet recorded — the URL is dispatched and its
normalization recorded, both exactly once. -/
theorem processCandidate_dispatch_fields (cfg : CrawlConfig) (o : Oracle) (s : CrawlState)
    (url : Str) :
    ((processCandidate cfg o s url).1.dispatched = s.dispatched ∧
      (processCandidate cfg o s url).1.normalized_urls = s.normalized_urls) ∨
    (normalize_url url ∉ s.normalized_urls ∧
      (processCandidate cfg o s url).1.dispatched = s.dispatched ++ [url] ∧
      (processCandidate cfg o s url).1.normalized_urls =
        s.normalized_urls ++ [normalize_url url]) := by
  simp only [processCandidate]
  repeat' split
  all_goals first
    | exact Or.inl ⟨rfl, rfl⟩
    | exact Or.inr ⟨by assumption, rfl, rfl⟩

theorem NoRedispatch_processCandidate (cfg : CrawlConfig) (o : Oracle) (s : CrawlState)
    (url : Str) (h : NoRedispatch s) : NoRedispatch (processCandidate cfg o s url).1 := by
  rcases processCandidate_dispatch_fields cfg o s url with ⟨hd, hn⟩ | ⟨hnin, hd, hn⟩
  · constructor
    · rw [hd]; exact h.1
    · rw [hd, hn]; exact h.2
  · constructor
    · rw [hd, List.pairwise_append]
      refine ⟨h.1, List.pairwise_singleton _ _, ?_⟩
      intro a ha b hb
      rw [List.mem_singleton] at hb
      subst hb
      intro hEq
      exact hnin (hEq ▸ h.2 a ha)
    · rw [hd, hn]
      intro u hu
      rcases List.mem_append.mp hu with hu1 | hu2
      · exact List.mem_append_left _ (h.2 u hu1)
      · rw [List.mem_singleton] at hu2
        subst hu2
        exact List.mem_append_right _ (List.mem_singleton.mpr rfl)

theorem NoRedispatch_afterBody (cfg : CrawlConfig) (s : CrawlState)
    (h : NoRedispatch s) : NoRedispatch (afterBody cfg s) := by
  constructor
  · rw [(afterBody_preserve cfg s).2.2.2.1]; exact h.1
  · rw [(afterBody_preserve cfg s).2.2.2.1, (afterBody_preserve cfg s).2.2.2.2]; exact h.2

theorem NoRedispatch_crawlStep (cfg : CrawlConfig) (o : Oracle) (s : CrawlState)
    (h : NoRedispatch s) : NoRedispatch (crawlStep cfg o s) := by
  unfold crawlStep
  split
  · rename_i url rest hq
    have h2 : NoRedispatch { s with content_url_queue := rest } := h
    split
    · rename_i s1 heqp
      have hh := NoRedispatch_processCandidate cfg o { s with content_url_queue := rest } url h2
      rw [heqp] at hh
      exact hh
    · rename_i s1 heqp
      apply NoRedispatch_afterBody
      have hh := NoRedispatch_processCandidate cfg o { s with content_url_queue := rest } url h2
      rw [heqp] at hh
      exact hh
  · split
    · rename_i q rest hq2
      apply NoRedispatch_afterBody
      exact h
    · exact h

/-- C4: in any run from the initial state, no two dispatched candidate URLs
share a normalization (the normalization is recorded in the visited set at
dispatch time, before the fetch); moreover a popped candidate whose
normalization is already recorded is skipped as a duplicate — the step only
pops it and increments `duplicates_skipped`, so it is never fetched. -/
theorem claim_C4_no_redispatch (cfg : CrawlConfig) (os : List Oracle) :
    (crawl_for_content cfg os (initState cfg)).dispatched.Pairwise
      (fun a b => normalize_url a ≠ normalize_url b) ∧
    ∀ (o : Oracle) (s : CrawlState) (url : Str) (rest : List Str),
      s.content_url_queue = url :: rest → normalize_url url ∈ s.normalized_urls →
      crawlStep cfg o s = { s with
        content_url_queue := rest
        stats := { s.stats with duplicates_skipped := s.stats.duplicates_skipped + 1 } } := by
  constructor
  · exact (run_invariant cfg NoRedispatch (NoRedispatch_crawlStep cfg) os (initState cfg)
      ⟨List.Pairwise.nil, fun u hu => absurd hu (List.not_mem_nil u)⟩).1
  · intro o s url rest hq hmem
    unfold crawlStep
    rw [hq]
    have hmem2 : normalize_url url ∈
        ({ s with content_url_queue := rest } : CrawlState).normalized_urls := hmem
    simp only [processCandidate, if_pos hmem2]

/-- Concrete state for the C4 witness: one queued URL whose normalization
is already in the visited set. -/
def c4ws : CrawlState :=
  { initState ⟨5, 100, 100, str "t", str "2025", lenHash⟩ with
      content_url_queue := [str "http://a.com/1?x=1"]
      normalized_urls := [normalize_url (str "http://a.com/1?x=1")] }

/-- Witness for C4: the already-seen candidate is consumed as a duplicate
skip (and the pairwise property holds for a concrete run). -/
theorem claim_C4_witness :
    (crawlStep ⟨5, 100, 100, str "t", str "2025", lenHash⟩ (oSearch []) c4ws).stats.duplicates_skipped = 1 := by
  rw [(claim_C4_no_redispatch ⟨5, 100, 100, str "t", str "2025", lenHash⟩ []).2 (oSearch []) c4ws
    (str "http://a.com/1?x=1") [] rfl (List.mem_singleton.mpr rfl)]
  rfl

/-! ## Claim C5: fingerprint count equals content_found -/

/-- The modelled guarantee of the `requests` fetcher: a URL that `urlparse`
rejects cannot be fetched (`requests` raises on it and `fetch_url` returns
`None`). -/
def FetchConsistent (o : Oracle) : Prop :=
  ∀ u e, urlparse u = .error e → o.fetch u = none

/-- Effect of one candidate-processing step on fingerprints and
`content_found`, for a fetch oracle consistent with URL parsing: either
both untouched, or — on a durably saved accept — both grow by exactly
one. -/
theorem processCandidate_found (cfg : CrawlConfig) (o : Oracle) (s : CrawlState) (url : Str)
    (hfetch : ∀ e, urlparse url = .error e → o.fetch url = none) :
    ((processCandidate cfg o s url).1.content_fingerprints.length =
        s.content_fingerprints.length ∧
      (processCandidate cfg o s url).1.stats.content_found = s.stats.content_found) ∨
    ((processCandidate cfg o s url).1.content_fingerprints.length =
        s.content_fingerprints.length + 1 ∧
      (processCandidate cfg o s url).1.stats.content_found = s.stats.content_found + 1) := by
  cases hp : urlparse url with
  | error e =>
    have hnone := hfetch e hp
    simp only [processCandidate, hnone]
    repeat' split
    all_goals exact Or.inl ⟨rfl, rfl⟩
  | ok pr =>
    simp only [processCandidate, hp]
    repeat' split
    all_goals try exact Or.inl ⟨rfl, rfl⟩
    all_goals exact Or.inr ⟨by simp, rfl⟩

theorem crawlStep_found (cfg : CrawlConfig) (o : Oracle) (s : CrawlState)
    (hfc : FetchConsistent o)
    (h : s.content_fingerprints.length = s.stats.content_found) :
    (crawlStep cfg o s).content_fingerprints.length = (crawlStep cfg o s).stats.content_found := by
  have key : ∀ url s2, s2.content_fingerprints = s.content_fingerprints →
      s2.stats.content_found = s.stats.content_found →
      (processCandidate cfg o s2 url).1.content_fingerprints.length =
        (processCandidate cfg o s2 url).1.stats.content_found := by
    intro url s2 hf hc
    rcases processCandidate_found cfg o s2 url (fun e he => hfc url e he) with
      ⟨h1, h2⟩ | ⟨h1, h2⟩
    · rw [h1, h2, hf, hc]; exact h
    · rw [h1, h2, hf, hc, h]
  unfold crawlStep
  split
  · rename_i url rest hq
    split
    · rename_i s1 heqp
      have hk := key url { s with content_url_queue := rest } rfl rfl
      rw [heqp] at hk
      exact hk
    · rename_i s1 heqp
      rw [(afterBody_preserve cfg s1).2.2.1, (afterBody_preserve cfg s1).1]
      have hk := key url { s with content_url_queue := rest } rfl rfl
      rw [heqp] at hk
      exact hk
  · split
    · rename_i q rest hq2
      rw [(afterBody_preserve cfg _).2.2.1, (afterBody_preserve cfg _).1,
        (processSearch_preserve o _ q).2.2.1, (processSearch_preserve o _ q).1]
      exact h
    · exact h

/-- C5: in any run from the initial state whose fetcher refuses unparseable
URLs (as `requests` does), the number of stored content fingerprints always
equals `stats["content_found"]`: exactly one fingerprint is appended
whenever `content_found` is incremented (both only when saving returned a
filepath), and neither changes on a similar-content rejection or a failed
save. -/
theorem claim_C5_fingerprint_count (cfg : CrawlConfig) (os : List Oracle)
    (h : ∀ o ∈ os, FetchConsistent o) :
    (crawl_for_content cfg os (initState cfg)).content_fingerprints.length =
      (crawl_for_content cfg os (initState cfg)).stats.content_found :=
  run_invariant_cond cfg
    (fun s => s.content_fingerprints.length = s.stats.content_found) FetchConsistent
    (fun o s hq hp => crawlStep_found cfg o s hq hp) os (initState cfg) h rfl

/-- Witness for C5: a concrete run with one consistent oracle (its fetcher
returns `None` everywhere). -/
theorem claim_C5_witness :
    (crawl_for_content ⟨5, 100, 100, str "t", str "2025", lenHash⟩
        [oSearch [str "http://a.com/1"]]
        (initState ⟨5, 100, 100, str "t", str "2025", lenHash⟩)).content_fingerprints.length =
      (crawl_for_content ⟨5, 100, 100, str "t", str "2025", lenHash⟩
        [oSearch [str "http://a.com/1"]]
        (initState ⟨5, 100, 100, str "t", str "2025", lenHash⟩)).stats.content_found :=
  claim_C5_fingerprint_count ⟨5, 100, 100, str "t", str "2025", lenHash⟩
    [oSearch [str "http://a.com/1"]]
    (fun o ho => by
      rw [List.mem_singleton] at ho
      subst ho
      intro u e _
      rfl)

/-! ## Order lemmas for the query-parameter sort -/

theorem strLt_trans {a : Str} : ∀ {b c : Str},
    strLt a b = true → strLt b c = true → strLt a c = true := by
  induction a with
  | nil =>
    intro b c h1 h2
    cases b with
    | nil => exact h2
    | cons y ys =>
      cases c with
      | nil => simp [strLt] at h2
      | cons z zs => rfl
  | cons x xs ih =>
    intro b c h1 h2
    cases b with
    | nil => simp [strLt] at h1
    | cons y ys =>
      cases c with
      | nil => simp [strLt] at h2
      | cons z zs =>
        simp only [strLt] at h1 h2 ⊢
        rcases lt_trichotomy x y with hxy | hxy | hxy
        · rcases lt_trichotomy y z with hyz | hyz | hyz
          · rw [if_pos (lt_trans hxy hyz)]
          · subst hyz; rw [if_pos hxy]
          · rw [if_neg (lt_asymm hyz), if_pos hyz] at h2
            exact absurd h2 (by decide)
        · subst hxy
          rcases lt_trichotomy x z with hxz | hxz | hxz
          · rw [if_pos hxz]
          · subst hxz
            simp only [if_neg (lt_irrefl x)] at h1 h2 ⊢
            exact ih h1 h2
          · rw [if_neg (lt_asymm hxz), if_pos hxz] at h2
            exact absurd h2 (by decide)
        · rw [if_neg (lt_asymm hxy), if_pos hxy] at h1
          exact absurd h1 (by decide)

theorem strLt_connex : ∀ (a b : Str), a ≠ b → strLt a b = true ∨ strLt b a = true := by
  intro a
  induction a with
  | nil =>
    intro b hb
    cases b with
    | nil => exact absurd rfl hb
    | cons y ys => exact Or.inl rfl
  | cons x xs ih =>
    intro b hb
    cases b with
    | nil => exact Or.inr rfl
    | cons y ys =>
      rcases lt_trichotomy x y with hxy | hxy | hxy
      · exact Or.inl (by simp [strLt, hxy])
      · subst hxy
        have hxs : xs ≠ ys := fun h => hb (by rw [h])
        rcases ih ys hxs with h | h
        · exact Or.inl (by simp [strLt, lt_irrefl, h])
        · exact Or.inr (by simp [strLt, lt_irrefl, h])
      · exact Or.inr (by simp [strLt, hxy])

theorem strLt_asymm : ∀ {a b : Str}, strLt a b = true → strLt b a = false := by
  intro a
  induction a with
  | nil =>
    intro b h
    cases b with
    | nil => exact absurd h (by decide)
    | cons y ys => rfl
  | cons x xs ih =>
    intro b h
    cases b with
    | nil => simp [strLt] at h
    | cons y ys =>
      simp only [strLt] at h ⊢
      rcases lt_trichotomy x y with hxy | hxy | hxy
      · rw [if_neg (lt_asymm hxy), if_pos hxy]
      · subst hxy
        simp only [if_neg (lt_irrefl x)] at h ⊢
        exact ih h
      · rw [if_neg (lt_asymm hxy), if_pos hxy] at h
        exact absurd h (by decide)

theorem strLt_irrefl (a : Str) : strLt a a = false := by
  induction a with
  | nil => rfl
  | cons c cs ih => simp [strLt, lt_irrefl, ih]

instance : IsTotal (Str × Str) pairLe := ⟨by
  intro a b
  by_cases h1 : a.1 = b.1
  · by_cases h2 : a.2 = b.2
    · exact Or.inl (Or.inr ⟨h1, Or.inr h2⟩)
    · rcases strLt_connex a.2 b.2 h2 with h | h
      · exact Or.inl (Or.inr ⟨h1, Or.inl h⟩)
      · exact Or.inr (Or.inr ⟨h1.symm, Or.inl h⟩)
  · rcases strLt_connex a.1 b.1 h1 with h | h
    · exact Or.inl (Or.inl h)
    · exact Or.inr (Or.inl h)⟩

instance : IsTrans (Str × Str) pairLe := ⟨by
  intro a b c hab hbc
  rcases hab with h1 | ⟨e1, h1⟩
  · rcases hbc with h2 | ⟨e2, h2⟩
    · exact Or.inl (strLt_trans h1 h2)
    · exact Or.inl (by rw [← e2]; exact h1)
  · rcases hbc with h2 | ⟨e2, h2⟩
    · exact Or.inl (by rw [e1]; exact h2)
    · refine Or.inr ⟨e1.trans e2, ?_⟩
      rcases h1 with hv1 | hv1
      · rcases h2 with hv2 | hv2
        · exact Or.inl (strLt_trans hv1 hv2)
        · exact Or.inl (by rw [← hv2]; exact hv1)
      · rcases h2 with hv2 | hv2
        · exact Or.inl (by rw [hv1]; exact hv2)
        · exact Or.inr (hv1.trans hv2)⟩

instance : IsAntisymm (Str × Str) pairLe := ⟨by
  intro a b hab hba
  rcases hab with h1 | ⟨e1, h1⟩
  · rcases hba with h2 | ⟨e2, h2⟩
    · have := strLt_asymm h1
      rw [h2] at this
      exact absurd this (by decide)
    · rw [e2] at h1
      rw [strLt_irrefl] at h1
      exact absurd h1 (by decide)
  · rcases hba with h2 | ⟨e2, h2⟩
    · rw [e1] at h2
      rw [strLt_irrefl] at h2
      exact absurd h2 (by decide)
    · rcases h1 with hv1 | hv1
      · rcases h2 with hv2 | hv2
        · have := strLt_asymm hv1
          rw [hv2] at this
          exact absurd this (by decide)
        · rw [hv2] at hv1
          rw [strLt_irrefl] at hv1
          exact absurd hv1 (by decide)
      · exact Prod.ext e1 hv1⟩

theorem insertionSort_eq_of_perm {l1 l2 : List (Str × Str)} (h : l1.Perm l2) :
    List.insertionSort pairLe l1 = List.insertionSort pairLe l2 :=
  List.eq_of_perm_of_sorted
    ((List.perm_insertionSort pairLe l1).trans
      (h.trans (List.perm_insertionSort pairLe l2).symm))
    (List.sorted_insertionSort pairLe l1) (List.sorted_insertionSort pairLe l2)

/-! ## Assoc-list lemmas for the query dict -/

/-- First-match lookup in an assoc list (Python dict lookup, on lists with
unique keys). -/
def lookupP : List (Str × Str) → Str → Option Str
  | [], _ => none
  | kv :: rest, k => if kv.1 = k then some kv.2 else lookupP rest k

/-- Last-match lookup (the value the key holds after all `d[k] = v`
assignments in order). -/
def lastLookup : List (Str × Str) → Str → Option Str
  | [], _ => none
  | kv :: rest, k =>
    match lastLookup rest k with
    | some v => some v
    | none => if kv.1 = k then some kv.2 else none

/-- Unique keys. -/
def keysND (l : List (Str × Str)) : Prop := (l.map Prod.fst).Nodup

theorem lookupP_dictSet (d : List (Str × Str)) (k v q : Str) :
    lookupP (dictSet d k v) q = if k = q then some v else lookupP d q := by
  induction d with
  | nil => simp [dictSet, lookupP]
  | cons kv rest ih =>
    simp only [dictSet]
    by_cases h1 : kv.1 = k
    · rw [if_pos h1]
      simp only [lookupP]
      by_cases hq : k = q
      · rw [if_pos hq, if_pos hq]
      · rw [if_neg hq, if_neg hq, if_neg (fun hh => hq (h1.symm.trans hh))]
    · rw [if_neg h1]
      simp only [lookupP, ih]
      by_cases h2 : kv.1 = q
      · have hq : ¬ k = q := fun hh => h1 (h2.trans hh.symm)
        rw [if_pos h2, if_neg hq, if_pos h2]
      · by_cases hq : k = q
        · rw [if_neg h2, if_pos hq, if_pos hq]
        · rw [if_neg h2, if_neg hq, if_neg hq, if_neg h2]

theorem mem_keys_dictSet (d : List (Str × Str)) (k v q : Str) :
    q ∈ (dictSet d k v).map Prod.fst ↔ q ∈ d.map Prod.fst ∨ q = k := by
  induction d with
  | nil => simp [dictSet]
  | cons kv rest ih =>
    simp only [dictSet]
    by_cases h1 : kv.1 = k
    · subst h1
      rw [if_pos rfl]
      simp only [List.map_cons, List.mem_cons]
      tauto
    · rw [if_neg h1]
      simp only [List.map_cons, List.mem_cons, ih]
      tauto

theorem keysND_dictSet (d : List (Str × Str)) (k v : Str) (h : keysND d) :
    keysND (dictSet d k v) := by
  induction d with
  | nil => simp [dictSet, keysND]
  | cons kv rest ih =>
    simp only [dictSet]
    unfold keysND at h
    simp only [List.map_cons, List.nodup_cons] at h
    by_cases h1 : kv.1 = k
    · rw [if_pos h1]
      unfold keysND
      simp only [List.map_cons, List.nodup_cons]
      exact ⟨h1 ▸ h.1, h.2⟩
    · rw [if_neg h1]
      unfold keysND
      simp only [List.map_cons, List.nodup_cons]
      refine ⟨?_, ih h.2⟩
      intro hm
      rcases (mem_keys_dictSet rest k v kv.1).mp hm with hm2 | hm2
      · exact h.1 hm2
      · exact h1 hm2

theorem lastLookup_eq_none (l : List (Str × Str)) (q : Str) :
    lastLookup l q = none ↔ q ∉ l.map Prod.fst := by
  induction l with
  | nil => simp [lastLookup]
  | cons kv rest ih =>
    simp only [lastLookup, List.map_cons, List.mem_cons]
    cases hr : lastLookup rest q with
    | some v =>
      constructor
      · intro h
        exact absurd h (by simp)
      · intro h
        exfalso
        have hq : q ∉ List.map Prod.fst rest := fun hm => h (Or.inr hm)
        rw [ih.mpr hq] at hr
        exact Option.noConfusion hr
    | none =>
      rw [hr] at ih
      constructor
      · intro h
        by_cases hk : kv.1 = q
        · rw [if_pos hk] at h
          exact absurd h (by simp)
        · push_neg
          exact ⟨fun hh => hk hh.symm, ih.mp rfl⟩
      · intro h
        rw [if_neg (fun hh => (not_or.mp h).1 hh.symm)]

theorem lookupP_eq_none_of_not_mem (l : List (Str × Str)) (q : Str)
    (h : q ∉ l.map Prod.fst) : lookupP l q = none := by
  induction l with
  | nil => rfl
  | cons kv rest ih =>
    simp only [List.map_cons, List.mem_cons, not_or] at h
    simp only [lookupP]
    rw [if_neg (fun hh => h.1 hh.symm)]
    exact ih h.2

theorem lookupP_append (a b : List (Str × Str)) (q : Str) :
    lookupP (a ++ b) q =
      match lookupP a q with
      | some v => some v
      | none => lookupP b q := by
  induction a with
  | nil => simp [lookupP]
  | cons kv rest ih =>
    simp only [List.cons_append, lookupP]
    by_cases hk : kv.1 = q
    · rw [if_pos hk, if_pos hk]
    · rw [if_neg hk, if_neg hk]
      exact ih

theorem lookupP_some_split {l : List (Str × Str)} {k : Str} {v : Str}
    (h : lookupP l k = some v) :
    ∃ l1 l2, l = l1 ++ (k, v) :: l2 ∧ k ∉ l1.map Prod.fst := by
  induction l with
  | nil => exact absurd h (by simp [lookupP])
  | cons kv rest ih =>
    simp only [lookupP] at h
    by_cases hk : kv.1 = k
    · rw [if_pos hk] at h
      refine ⟨[], rest, ?_, by simp⟩
      have hv : kv.2 = v := Option.some.inj h
      rw [List.nil_append]
      rw [show kv = (k, v) from Prod.ext hk hv]
    · rw [if_neg hk] at h
      obtain ⟨l1, l2, heq, hnm⟩ := ih h
      refine ⟨kv :: l1, l2, by rw [heq, List.cons_append], ?_⟩
      simp only [List.map_cons, List.mem_cons, not_or]
      exact ⟨fun hh => hk hh.symm, hnm⟩

theorem perm_of_lookupP_eq : ∀ {l1 l2 : List (Str × Str)}, keysND l1 → keysND l2 →
    (∀ q, lookupP l1 q = lookupP l2 q) → l1.Perm l2 := by
  intro l1
  induction l1 with
  | nil =>
    intro l2 _ _ h
    cases l2 with
    | nil => exact List.Perm.refl []
    | cons kv rest =>
      have := h kv.1
      simp [lookupP] at this
  | cons kv rest ih =>
    intro l2 h1 h2 h
    have hhd : lookupP l2 kv.1 = some kv.2 := by
      rw [← h kv.1]; simp [lookupP]
    obtain ⟨a, b, heq, hnma⟩ := lookupP_some_split hhd
    subst heq
    have h1' : keysND rest := by
      unfold keysND at h1 ⊢
      simp only [List.map_cons, List.nodup_cons] at h1
      exact h1.2
    have hnotrest : kv.1 ∉ rest.map Prod.fst := by
      unfold keysND at h1
      simp only [List.map_cons, List.nodup_cons] at h1
      exact h1.1
    have hnmb : kv.1 ∉ b.map Prod.fst := by
      unfold keysND at h2
      simp only [List.map_append, List.map_cons] at h2
      have := (List.nodup_append.mp h2).2
      simp only [List.nodup_cons] at this
      exact this.1.1
    have h2' : keysND (a ++ b) := by
      unfold keysND at h2 ⊢
      simp only [List.map_append, List.map_cons] at h2 ⊢
      exact List.Nodup.sublist
        (List.Sublist.append_left (List.sublist_cons_self _ _) _) h2
    have hlk : ∀ q, lookupP rest q = lookupP (a ++ b) q := by
      intro q
      by_cases hq : q = kv.1
      · subst hq
        rw [lookupP_eq_none_of_not_mem rest _ hnotrest,
          lookupP_append, lookupP_eq_none_of_not_mem a _ hnma,
          lookupP_eq_none_of_not_mem b _ hnmb]
      · have := h q
        simp only [lookupP] at this
        rw [if_neg (fun hh => hq hh.symm)] at this
        rw [this, lookupP_append, lookupP_append]
        cases lookupP a q with
        | some v => rfl
        | none =>
          simp only [lookupP]
          rw [if_neg (fun hh => hq hh.symm)]
    have hperm := ih h1' h2' hlk
    exact (List.Perm.cons kv hperm).trans List.perm_middle.symm

/-! ## The two query pipelines agree -/

/-- Parse one `&`-separated query piece into a `k=v` pair (pieces without
`=` are dropped). -/
def parsePiece (piece : Str) : Option (Str × Str) :=
  match splitFirst '=' piece with
  | (_, none) => none
  | (k, some v) => some (k, v)

/-- All `k=v` pairs of a query string, in order, before tracking-key
filtering and dict collapsing. -/
def rawParams (q : Str) : List (Str × Str) := (splitAll '&' q).filterMap parsePiece

/-- The keep-this-parameter test (its lowercased key is not a tracking
key). -/
def nonTracking (kv : Str × Str) : Bool := decide (lowerStr kv.1 ∉ trackingParams)

theorem collectParams_cons_none {piece : Str} (rest : List Str) (d : List (Str × Str))
    (h : parsePiece piece = none) :
    collectParams (piece :: rest) d = collectParams rest d := by
  unfold parsePiece at h
  cases hs : splitFirst '=' piece with
  | mk a r =>
    cases r with
    | none => simp only [collectParams, hs]
    | some v => rw [hs] at h; exact absurd h (by simp)

theorem collectParams_cons_some {piece : Str} {kv : Str × Str} (rest : List Str)
    (d : List (Str × Str)) (h : parsePiece piece = some kv) :
    collectParams (piece :: rest) d =
      if lowerStr kv.1 ∈ trackingParams then collectParams rest d
      else collectParams rest (dictSet d kv.1 kv.2) := by
  unfold parsePiece at h
  cases hs : splitFirst '=' piece with
  | mk a r =>
    cases r with
    | none => rw [hs] at h; exact absurd h (by simp)
    | some v =>
      rw [hs] at h
      have hkv : (a, v) = kv := by simpa using h
      subst hkv
      simp only [collectParams, hs]

theorem keysND_collectParams (ps : List Str) (d : List (Str × Str)) (h : keysND d) :
    keysND (collectParams ps d) := by
  induction ps generalizing d with
  | nil => exact h
  | cons piece rest ih =>
    cases hp : parsePiece piece with
    | none =>
      rw [collectParams_cons_none rest d hp]
      exact ih d h
    | some kv =>
      rw [collectParams_cons_some rest d hp]
      by_cases ht : lowerStr kv.1 ∈ trackingParams
      · rw [if_pos ht]
        exact ih d h
      · rw [if_neg ht]
        exact ih _ (keysND_dictSet d kv.1 kv.2 h)

theorem lookupP_collectParams (ps : List Str) (d : List (Str × Str)) (q : Str) :
    lookupP (collectParams ps d) q =
      match lastLookup ((ps.filterMap parsePiece).filter nonTracking) q with
      | some v => some v
      | none => lookupP d q := by
  induction ps generalizing d with
  | nil => simp [collectParams, lastLookup]
  | cons piece rest ih =>
    cases hp : parsePiece piece with
    | none =>
      rw [collectParams_cons_none rest d hp]
      rw [List.filterMap_cons, hp]
      exact ih d
    | some kv =>
      rw [collectParams_cons_some rest d hp]
      rw [List.filterMap_cons, hp]
      by_cases ht : lowerStr kv.1 ∈ trackingParams
      · rw [if_pos ht, List.filter_cons_of_neg (by simp [nonTracking, ht])]
        exact ih d
      · rw [if_neg ht, List.filter_cons_of_pos (by simp [nonTracking, ht])]
        rw [ih]
        cases hl : lastLookup ((rest.filterMap parsePiece).filter nonTracking) q with
        | some v => simp only [lastLookup, hl]
        | none =>
          simp only [lastLookup, hl, lookupP_dictSet]
          by_cases hk : kv.1 = q
          · rw [if_pos hk, if_pos hk]
          · rw [if_neg hk, if_neg hk]

/-- The amended-spec pipeline: keep the last occurrence of each key. -/
def dedupKeepLast : List (Str × Str) → List (Str × Str)
  | [] => []
  | kv :: rest =>
    if kv.1 ∈ rest.map Prod.fst then dedupKeepLast rest
    else kv :: dedupKeepLast rest

theorem mem_keys_dedupKeepLast (l : List (Str × Str)) (q : Str) :
    q ∈ (dedupKeepLast l).map Prod.fst → q ∈ l.map Prod.fst := by
  induction l with
  | nil => exact fun h => h
  | cons kv rest ih =>
    simp only [dedupKeepLast]
    by_cases hm : kv.1 ∈ rest.map Prod.fst
    · rw [if_pos hm]
      intro h
      simp only [List.map_cons, List.mem_cons]
      exact Or.inr (ih h)
    · rw [if_neg hm]
      simp only [List.map_cons, List.mem_cons]
      rintro (h | h)
      · exact Or.inl h
      · exact Or.inr (ih h)

theorem keysND_dedupKeepLast (l : List (Str × Str)) : keysND (dedupKeepLast l) := by
  induction l with
  | nil => exact List.nodup_nil
  | cons kv rest ih =>
    unfold keysND at ih ⊢
    simp only [dedupKeepLast]
    by_cases hm : kv.1 ∈ rest.map Prod.fst
    · rw [if_pos hm]
      exact ih
    · rw [if_neg hm]
      simp only [List.map_cons, List.nodup_cons]
      exact ⟨fun h => hm (mem_keys_dedupKeepLast rest kv.1 h), ih⟩

theorem lookupP_dedupKeepLast (l : List (Str × Str)) (q : Str) :
    lookupP (dedupKeepLast l) q = lastLookup l q := by
  induction l with
  | nil => rfl
  | cons kv rest ih =>
    simp only [dedupKeepLast, lastLookup]
    by_cases hm : kv.1 ∈ rest.map Prod.fst
    · rw [if_pos hm, ih]
      cases hl : lastLookup rest q with
      | some v => rfl
      | none =>
        by_cases hk : kv.1 = q
        · exact absurd (hk ▸ hm) ((lastLookup_eq_none rest q).mp hl)
        · rw [if_neg hk]
    · rw [if_neg hm]
      simp only [lookupP]
      cases hl : lastLookup rest q with
      | some v =>
        by_cases hk : kv.1 = q
        · subst hk
          have hmem : kv.1 ∈ rest.map Prod.fst := by
            by_contra hmem
            rw [(lastLookup_eq_none rest kv.1).mpr hmem] at hl
            exact Option.noConfusion hl
          exact absurd hmem hm
        · rw [if_neg hk, if_neg hk, ih, hl]
      | none =>
        by_cases hk : kv.1 = q
        · rw [if_pos hk, if_pos hk]
        · rw [if_neg hk, if_neg hk, ih, hl]

theorem keysND_filter_nonTracking (l : List (Str × Str)) (h : keysND l) :
    keysND (l.filter nonTracking) :=
  List.Nodup.sublist (List.Sublist.map _ (List.filter_sublist l)) h

theorem lookupP_filter_nonTracking (l : List (Str × Str)) (q : Str) :
    lookupP (l.filter nonTracking) q =
      if lowerStr q ∉ trackingParams then lookupP l q else none := by
  induction l with
  | nil => simp [lookupP]
  | cons kv rest ih =>
    by_cases hp : nonTracking kv = true
    · rw [List.filter_cons_of_pos hp]
      simp only [lookupP]
      by_cases hk : kv.1 = q
      · have hq : lowerStr q ∉ trackingParams := by
          have := of_decide_eq_true hp
          rw [hk] at this
          exact this
        rw [if_pos hk, if_pos hq, if_pos hk]
      · rw [if_neg hk, ih]
        by_cases hq : lowerStr q ∉ trackingParams
        · rw [if_pos hq, if_pos hq, if_neg hk]
        · rw [if_neg hq, if_neg hq]
    · rw [List.filter_cons_of_neg (by simpa using hp)]
      rw [ih]
      by_cases hq : lowerStr q ∉ trackingParams
      · rw [if_pos hq, if_pos hq]
        simp only [lookupP]
        have hk : ¬ kv.1 = q := by
          intro hh
          apply hp
          unfold nonTracking
          rw [hh]
          exact decide_eq_true hq
        rw [if_neg hk]
      · rw [if_neg hq, if_neg hq]

theorem lastLookup_filter_nonTracking (l : List (Str × Str)) (q : Str) :
    lastLookup (l.filter nonTracking) q =
      if lowerStr q ∉ trackingParams then lastLookup l q else none := by
  induction l with
  | nil => simp [lastLookup]
  | cons kv rest ih =>
    by_cases hp : nonTracking kv = true
    · rw [List.filter_cons_of_pos hp]
      simp only [lastLookup, ih]
      by_cases hq : lowerStr q ∉ trackingParams
      · rw [if_pos hq, if_pos hq]
      · rw [if_neg hq, if_neg hq]
        have hk : ¬ kv.1 = q := by
          intro hh
          apply hq
          have := of_decide_eq_true hp
          rw [hh] at this
          exact this
        rw [if_neg hk]
    · rw [List.filter_cons_of_neg (by simpa using hp)]
      rw [ih]
      by_cases hq : lowerStr q ∉ trackingParams
      · rw [if_pos hq, if_pos hq]
        simp only [lastLookup]
        have hk : ¬ kv.1 = q := by
          intro hh
          apply hp
          unfold nonTracking
          rw [hh]
          exact decide_eq_true hq
        cases hl : lastLookup rest q with
        | some v => rfl
        | none => rw [if_neg hk]
      · rw [if_neg hq, if_neg hq]

theorem option_match_id (x : Option Str) :
    (match x with | some v => some v | none => none) = x := by
  cases x <;> rfl

/-- The dict-fold pipeline of the source and the filter/dedup-last pipeline
of the (amended) specification hold the same parameters. -/
theorem query_pipelines_perm (q : Str) :
    (collectParams (splitAll '&' q) []).Perm
      ((dedupKeepLast (rawParams q)).filter nonTracking) := by
  apply perm_of_lookupP_eq
  · exact keysND_collectParams _ _ List.nodup_nil
  · exact keysND_filter_nonTracking _ (keysND_dedupKeepLast _)
  · intro z
    rw [lookupP_collectParams]
    rw [show lookupP [] z = none from rfl]
    rw [option_match_id]
    rw [lookupP_filter_nonTracking, lastLookup_filter_nonTracking]
    by_cases hz : lowerStr z ∉ trackingParams
    · rw [if_pos hz, if_pos hz, lookupP_dedupKeepLast]
      rfl
    · rw [if_neg hz, if_neg hz]

/-! ## Claim C6: what normalize_url does -/

/-- C6 counterexample: `utm_term` is NOT dropped by `normalize_url` (only
`utm_source`, `utm_medium` and `utm_campaign` of the `utm_*` family are),
so "all parameters matching utm_*" is false. -/
theorem claim_C6_counterexample :
    normalize_url (str "http://a.com/p?utm_term=x&utm_source=y") =
      str "http://a.com/p?utm_term=x" ∧
    normalize_url (str "http://a.com/p?utm_term=x&utm_source=y") ≠ str "http://a.com/p" := by
  exact ⟨by decide, by decide⟩

/-- Modelled from the amended specification wording of C6: lowercase the
host and the path, strip trailing slashes, drop exactly the parameters
whose lowercased key is one of utm_source, utm_medium, utm_campaign, ref,
source, fbclid, gclid (keeping the last value of a repeated key), and emit
the remaining parameters sorted by key. -/
def normalize_spec (pr : ParseResult) : Str :=
  let host := lowerStr pr.netloc
  let path := rstripSlash (lowerStr pr.path)
  let kept := (dedupKeepLast (rawParams pr.query)).filter nonTracking
  let qs := joinAmp ((List.insertionSort pairLe kept).map (fun kv => kv.1 ++ '=' :: kv.2))
  pr.scheme ++ str "://" ++ host ++ path ++ (if qs = [] then [] else '?' :: qs)

/-- C6 amended: on every URL accepted by `urlparse`, `normalize_url`
behaves exactly as the amended specification describes (with the tracking
list corrected to the seven literal keys). -/
theorem claim_C6_normalize_behaviour (u : Str) (pr : ParseResult)
    (h : urlparse u = .ok pr) : normalize_url u = normalize_spec pr := by
  unfold normalize_url normalize_spec renderQuery
  rw [h]
  dsimp only
  rw [insertionSort_eq_of_perm (query_pipelines_perm pr.query)]

/-- Witness for C6 (amended): a concrete URL with mixed-case host, trailing
slash, a tracking parameter, a retained `utm_term`, and unsorted keys. -/
theorem claim_C6_witness :
    normalize_url (str "http://Ex.COM/A/B/?b=2&utm_source=x&a=1&utm_term=z") =
      normalize_spec ⟨str "http", str "Ex.COM", str "/A/B/", str "",
        str "b=2&utm_source=x&a=1&utm_term=z", str ""⟩ :=
  claim_C6_normalize_behaviour (str "http://Ex.COM/A/B/?b=2&utm_source=x&a=1&utm_term=z")
    ⟨str "http", str "Ex.COM", str "/A/B/", str "",
      str "b=2&utm_source=x&a=1&utm_term=z", str ""⟩ rfl

/-! ## Character-level lemmas for lowercasing -/

theorem char_eq_of_toNat_eq {a b : Char} (h : a.toNat = b.toNat) : a = b := by
  have h2 := congrArg Char.ofNat h
  rwa [Char.ofNat_toNat, Char.ofNat_toNat] at h2

theorem toNat_ofNat_small {n : Nat} (h1 : 97 ≤ n) (h2 : n ≤ 122) :
    (Char.ofNat n).toNat = n := by
  unfold Char.ofNat
  rw [dif_pos (Or.inl (by omega : n < 55296))]
  unfold Char.ofNatAux
  show (UInt32.ofNat' n _).toNat = n
  simp [UInt32.ofNat', UInt32.toNat, BitVec.toNat_ofNat]

theorem toLower_toNat (c : Char) :
    (Char.toLower c).toNat =
      if 65 ≤ c.toNat ∧ c.toNat ≤ 90 then c.toNat + 32 else c.toNat := by
  unfold Char.toLower
  by_cases h : c.toNat ≥ 65 ∧ c.toNat ≤ 90
  · rw [if_pos h, if_pos ⟨h.1, h.2⟩, toNat_ofNat_small (by omega) (by omega)]
  · rw [if_neg h, if_neg h]

theorem toLower_eq_self {c : Char} (hA : ¬ (65 ≤ c.toNat ∧ c.toNat ≤ 90)) :
    Char.toLower c = c :=
  char_eq_of_toNat_eq (by rw [toLower_toNat, if_neg hA])

theorem toLower_toLower (c : Char) : Char.toLower (Char.toLower c) = Char.toLower c := by
  apply char_eq_of_toNat_eq
  rw [toLower_toNat (Char.toLower c), toLower_toNat c]
  by_cases hA : 65 ≤ c.toNat ∧ c.toNat ≤ 90
  · rw [if_pos hA, if_neg (by omega)]
  · rw [if_neg hA, if_neg hA]

/-- A character that is neither an uppercase nor a lowercase ASCII letter is
a fixed point of `toLower`, and nothing else maps to it. -/
theorem toLower_eq_iff {d : Char} (hd : ¬ (65 ≤ d.toNat ∧ d.toNat ≤ 90))
    (hd2 : ¬ (97 ≤ d.toNat ∧ d.toNat ≤ 122)) (c : Char) :
    Char.toLower c = d ↔ c = d := by
  constructor
  · intro h
    have h2 := congrArg Char.toNat h
    rw [toLower_toNat] at h2
    by_cases hA : 65 ≤ c.toNat ∧ c.toNat ≤ 90
    · rw [if_pos hA] at h2
      exact absurd ⟨by omega, by omega⟩ hd2
    · rw [if_neg hA] at h2
      exact char_eq_of_toNat_eq h2
  · intro h
    subst h
    exact toLower_eq_self hd

theorem lowerStr_idem (s : Str) : lowerStr (lowerStr s) = lowerStr s := by
  unfold lowerStr
  rw [List.map_map]
  apply List.map_congr_left
  intro c _
  exact toLower_toLower c

theorem mem_lowerStr {d : Char} (hd : ¬ (65 ≤ d.toNat ∧ d.toNat ≤ 90))
    (hd2 : ¬ (97 ≤ d.toNat ∧ d.toNat ≤ 122)) (s : Str) :
    d ∈ lowerStr s ↔ d ∈ s := by
  unfold lowerStr
  rw [List.mem_map]
  constructor
  · rintro ⟨c, hc, he⟩
    rw [(toLower_eq_iff hd hd2 c).mp he] at hc
    exact hc
  · intro h
    exact ⟨d, h, (toLower_eq_iff hd hd2 d).mpr rfl⟩

theorem isAlpha_iff_toNat (c : Char) :
    c.isAlpha = true ↔ (65 ≤ c.toNat ∧ c.toNat ≤ 90) ∨ (97 ≤ c.toNat ∧ c.toNat ≤ 122) := by
  unfold Char.isAlpha Char.isUpper Char.isLower
  simp only [Bool.or_eq_true, Bool.and_eq_true, decide_eq_true_eq]
  constructor
  · rintro (⟨h1, h2⟩ | ⟨h1, h2⟩)
    · exact Or.inl ⟨h1, h2⟩
    · exact Or.inr ⟨h1, h2⟩
  · rintro (⟨h1, h2⟩ | ⟨h1, h2⟩)
    · exact Or.inl ⟨h1, h2⟩
    · exact Or.inr ⟨h1, h2⟩

theorem isAlpha_toLower {c : Char} (h : c.isAlpha = true) :
    (Char.toLower c).isAlpha = true := by
  by_cases hA : 65 ≤ c.toNat ∧ c.toNat ≤ 90
  · rw [isAlpha_iff_toNat, toLower_toNat, if_pos hA]
    exact Or.inr ⟨by omega, by omega⟩
  · rw [toLower_eq_self hA]
    exact h

theorem isDigit_iff_toNat (c : Char) :
    c.isDigit = true ↔ (48 ≤ c.toNat ∧ c.toNat ≤ 57) := by
  unfold Char.isDigit
  simp only [Bool.and_eq_true, decide_eq_true_eq]
  constructor
  · rintro ⟨h1, h2⟩
    exact ⟨h1, h2⟩
  · rintro ⟨h1, h2⟩
    exact ⟨h1, h2⟩

theorem isSchemeChar_toLower {c : Char} (h : isSchemeChar c = true) :
    isSchemeChar (Char.toLower c) = true := by
  by_cases hA : 65 ≤ c.toNat ∧ c.toNat ≤ 90
  · unfold isSchemeChar
    have : (Char.toLower c).isAlpha = true := by
      rw [isAlpha_iff_toNat, toLower_toNat, if_pos hA]
      exact Or.inr ⟨by omega, by omega⟩
    rw [this]
    rfl
  · rw [toLower_eq_self hA]
    exact h

theorem colon_not_mem_of_scheme {s : Str} (h : s.all isSchemeChar = true) : ':' ∉ s := by
  intro hm
  have h2 := (List.all_eq_true.mp h) ':' hm
  exact absurd h2 (by decide)

theorem lowerStr_headD (s : Str) (h : s ≠ []) :
    (lowerStr s).headD ' ' = Char.toLower (s.headD ' ') := by
  cases s with
  | nil => exact absurd rfl h
  | cons c cs => rfl

theorem lowerStr_all_scheme {s : Str} (h : s.all isSchemeChar = true) :
    (lowerStr s).all isSchemeChar = true := by
  rw [List.all_eq_true] at h ⊢
  intro c hc
  rw [lowerStr, List.mem_map] at hc
  obtain ⟨a, ha, he⟩ := hc
  rw [← he]
  exact isSchemeChar_toLower (h a ha)

/-! ## Structural lemmas for the splitting primitives -/

theorem spanNot_decomp (ds : List Char) (s : Str) :
    (spanNot ds s).1 ++ (spanNot ds s).2 = s := by
  induction s with
  | nil => rfl
  | cons c cs ih =>
    simp only [spanNot]
    by_cases h : c ∈ ds
    · rw [if_pos h]
      rfl
    · rw [if_neg h]
      cases hs : spanNot ds cs with
    | mk a b =>
      rw [hs] at ih
      simp only [List.cons_append]
      rw [ih]

theorem spanNot_fst_prop (ds : List Char) (s : Str) :
    ∀ c ∈ (spanNot ds s).1, c ∉ ds := by
  induction s with
  | nil => intro c hc; exact absurd hc (List.not_mem_nil c)
  | cons x xs ih =>
    simp only [spanNot]
    by_cases h : x ∈ ds
    · rw [if_pos h]
      intro c hc
      exact absurd hc (List.not_mem_nil c)
    · rw [if_neg h]
      cases hs : spanNot ds xs with
    | mk a b =>
      rw [hs] at ih
      intro c hc
      rcases List.mem_cons.mp hc with hc | hc
      · subst hc; exact h
      · exact ih c hc

theorem spanNot_snd_head (ds : List Char) (s : Str) :
    (spanNot ds s).2 = [] ∨ (spanNot ds s).2.headD ' ' ∈ ds := by
  induction s with
  | nil => exact Or.inl rfl
  | cons x xs ih =>
    simp only [spanNot]
    by_cases h : x ∈ ds
    · rw [if_pos h]
      exact Or.inr h
    · rw [if_neg h]
      cases hs : spanNot ds xs with
    | mk a b =>
      rw [hs] at ih
      exact ih

theorem spanNot_upto (ds : List Char) {a : Str} (ha : ∀ c ∈ a, c ∉ ds) {d : Char}
    (hd : d ∈ ds) (b : Str) : spanNot ds (a ++ d :: b) = (a, d :: b) := by
  induction a with
  | nil =>
    simp only [List.nil_append, spanNot, if_pos hd]
  | cons x xs ih =>
    have hih : spanNot ds (xs ++ d :: b) = (xs, d :: b) :=
      ih (fun c hc => ha c (List.mem_cons_of_mem x hc))
    show spanNot ds (x :: (xs ++ d :: b)) = (x :: xs, d :: b)
    rw [spanNot, if_neg (ha x (List.mem_cons_self x xs)), hih]

theorem spanNot_clean (ds : List Char) {s : Str} (hs : ∀ c ∈ s, c ∉ ds) :
    spanNot ds s = (s, []) := by
  induction s with
  | nil => rfl
  | cons x xs ih =>
    simp only [spanNot]
    rw [if_neg (hs x (List.mem_cons_self x xs))]
    rw [ih (fun c hc => hs c (List.mem_cons_of_mem x hc))]

theorem splitFirst_not_mem (d : Char) {s : Str} (h : d ∉ s) : splitFirst d s = (s, none) := by
  induction s with
  | nil => rfl
  | cons x xs ih =>
    have hx : ¬ x = d := fun hh : x = d => h (List.mem_cons.mpr (Or.inl hh.symm))
    have hih : splitFirst d xs = (xs, none) :=
      ih (fun hh => h (List.mem_cons_of_mem x hh))
    rw [splitFirst, if_neg hx, hih]

theorem splitFirst_upto (d : Char) {a : Str} (ha : d ∉ a) (b : Str) :
    splitFirst d (a ++ d :: b) = (a, some b) := by
  induction a with
  | nil => simp [splitFirst]
  | cons x xs ih =>
    have hx : ¬ x = d := fun hh : x = d => ha (List.mem_cons.mpr (Or.inl hh.symm))
    have hih : splitFirst d (xs ++ d :: b) = (xs, some b) :=
      ih (fun hh => ha (List.mem_cons_of_mem x hh))
    show splitFirst d (x :: (xs ++ d :: b)) = (x :: xs, some b)
    rw [splitFirst, if_neg hx, hih]

theorem splitFirst_fst_not_mem (d : Char) (s : Str) : d ∉ (splitFirst d s).1 := by
  induction s with
  | nil => exact List.not_mem_nil d
  | cons x xs ih =>
    simp only [splitFirst]
    by_cases h : x = d
    · rw [if_pos h]
      exact List.not_mem_nil d
    · rw [if_neg h]
      cases hs : splitFirst d xs with
    | mk a r =>
      rw [hs] at ih
      intro hc
      rcases List.mem_cons.mp hc with hc | hc
      · exact h hc.symm
      · exact ih hc

theorem splitFirst_decomp (d : Char) (s : Str) :
    (splitFirst d s).2 = none ∧ (splitFirst d s).1 = s ∨
    ∃ b, (splitFirst d s).2 = some b ∧ s = (splitFirst d s).1 ++ d :: b := by
  induction s with
  | nil => exact Or.inl ⟨rfl, rfl⟩
  | cons x xs ih =>
    simp only [splitFirst]
    by_cases h : x = d
    · rw [if_pos h]
      exact Or.inr ⟨xs, rfl, by rw [h]; rfl⟩
    · rw [if_neg h]
      cases hs : splitFirst d xs with
    | mk a r =>
      rw [hs] at ih
      rcases ih with ⟨h1, h2⟩ | ⟨b, h1, h2⟩
      · simp only at h1 h2
        subst h1
        exact Or.inl ⟨rfl, by rw [h2]⟩
      · simp only at h1 h2
        subst h1
        refine Or.inr ⟨b, rfl, ?_⟩
        simp only [List.cons_append]
        rw [← h2]

theorem splitFirst_fst_subset (d : Char) (s : Str) :
    ∀ c ∈ (splitFirst d s).1, c ∈ s := by
  rcases splitFirst_decomp d s with ⟨_, h2⟩ | ⟨b, _, h2⟩
  · intro c hc; rw [← h2]; exact hc
  · intro c hc
    rw [h2]
    exact List.mem_append_left _ hc

theorem splitFirst_snd_subset (d : Char) (s : Str) {t : Str}
    (h : (splitFirst d s).2 = some t) : ∀ c ∈ t, c ∈ s := by
  rcases splitFirst_decomp d s with ⟨h1, _⟩ | ⟨b, h1, h2⟩
  · rw [h1] at h; exact absurd h (by simp)
  · rw [h1] at h
    have hb : b = t := Option.some.inj h
    subst hb
    intro c hc
    rw [h2]
    exact List.mem_append_right _ (List.mem_cons_of_mem d hc)

theorem splitAll_not_mem (d : Char) {s : Str} (h : d ∉ s) : splitAll d s = [s] := by
  induction s with
  | nil => rfl
  | cons x xs ih =>
    have hx : ¬ x = d := fun hh : x = d => h (List.mem_cons.mpr (Or.inl hh.symm))
    have hih : splitAll d xs = [xs] :=
      ih (fun hh => h (List.mem_cons_of_mem x hh))
    rw [splitAll, if_neg hx, hih]

theorem splitAll_upto (d : Char) {a : Str} (ha : d ∉ a) (b : Str) :
    splitAll d (a ++ d :: b) = a :: splitAll d b := by
  induction a with
  | nil => simp [splitAll]
  | cons x xs ih =>
    have hx : ¬ x = d := fun hh : x = d => ha (List.mem_cons.mpr (Or.inl hh.symm))
    have hih : splitAll d (xs ++ d :: b) = xs :: splitAll d b :=
      ih (fun hh => ha (List.mem_cons_of_mem x hh))
    show splitAll d (x :: (xs ++ d :: b)) = (x :: xs) :: splitAll d b
    rw [splitAll, if_neg hx, hih]

theorem splitAll_ne_nil (d : Char) (s : Str) : splitAll d s ≠ [] := by
  induction s with
  | nil => simp [splitAll]
  | cons x xs ih =>
    simp only [splitAll]
    by_cases h : x = d
    · rw [if_pos h]; simp
    · rw [if_neg h]
      cases hs : splitAll d xs with
    | nil => exact absurd hs ih
    | cons p ps => simp

theorem mem_of_mem_splitAll (d : Char) (s : Str) :
    ∀ piece ∈ splitAll d s, ∀ c ∈ piece, c ∈ s ∧ c ≠ d := by
  induction s with
  | nil =>
    intro piece hp c hc
    simp only [splitAll, List.mem_singleton] at hp
    subst hp
    exact absurd hc (List.not_mem_nil c)
  | cons x xs ih =>
    intro piece hp c hc
    simp only [splitAll] at hp
    by_cases h : x = d
    · rw [if_pos h] at hp
      rcases List.mem_cons.mp hp with hp | hp
      · subst hp; exact absurd hc (List.not_mem_nil c)
      · obtain ⟨h1, h2⟩ := ih piece hp c hc
        exact ⟨List.mem_cons_of_mem x h1, h2⟩
    · rw [if_neg h] at hp
      cases hs : splitAll d xs with
    | nil => exact absurd hs (splitAll_ne_nil d xs)
    | cons p ps =>
      rw [hs] at hp
      rcases List.mem_cons.mp hp with hp | hp
      · subst hp
        rcases List.mem_cons.mp hc with hc | hc
        · subst hc
          exact ⟨List.mem_cons_self c xs, h⟩
        · obtain ⟨h1, h2⟩ := ih p (hs ▸ List.mem_cons_self p ps) c hc
          exact ⟨List.mem_cons_of_mem x h1, h2⟩
      · obtain ⟨h1, h2⟩ := ih piece (hs ▸ List.mem_cons_of_mem p hp) c hc
        exact ⟨List.mem_cons_of_mem x h1, h2⟩

/-! ## Trailing-slash stripping and lowercasing: structural lemmas -/

theorem headD_append_of_ne_nil {a : Str} (b : Str) (h : a ≠ []) (x : Char) :
    (a ++ b).headD x = a.headD x := by
  cases a with
  | nil => exact absurd rfl h
  | cons c cs => rfl

theorem headD_of_append_eq {a b p : Str} (h : a ++ b = p) :
    a = [] ∨ a.headD ' ' = p.headD ' ' := by
  cases a with
  | nil => exact Or.inl rfl
  | cons c cs => right; rw [← h]; rfl

theorem mem_of_mem_dropWhile {p : Char → Bool} {c : Char} :
    ∀ {l : Str}, c ∈ l.dropWhile p → c ∈ l := by
  intro l
  induction l with
  | nil => intro h; exact absurd h (List.not_mem_nil c)
  | cons x xs ih =>
    intro h
    rw [List.dropWhile_cons] at h
    by_cases hp : p x = true
    · rw [if_pos hp] at h
      exact List.mem_cons_of_mem x (ih h)
    · rw [if_neg hp] at h
      exact h

theorem mem_rstripSlash {c : Char} {s : Str} (h : c ∈ rstripSlash s) : c ∈ s := by
  unfold rstripSlash at h
  rw [List.mem_reverse] at h
  have h2 := mem_of_mem_dropWhile h
  rwa [List.mem_reverse] at h2

theorem dropWhile_dropWhile (p : Char → Bool) (l : Str) :
    (l.dropWhile p).dropWhile p = l.dropWhile p := by
  induction l with
  | nil => rfl
  | cons x xs ih =>
    rw [List.dropWhile_cons]
    by_cases h : p x = true
    · rw [if_pos h]; exact ih
    · rw [if_neg h, List.dropWhile_cons, if_neg h]

theorem rstripSlash_idem (s : Str) : rstripSlash (rstripSlash s) = rstripSlash s := by
  unfold rstripSlash
  rw [List.reverse_reverse, dropWhile_dropWhile]

theorem dropWhile_headD_or (p : Char → Bool) (l : Str) :
    l.dropWhile p = [] ∨ p ((l.dropWhile p).headD ' ') = false := by
  induction l with
  | nil => exact Or.inl rfl
  | cons c cs ih =>
    rw [List.dropWhile_cons]
    by_cases h : p c = true
    · rw [if_pos h]; exact ih
    · rw [if_neg h]
      right
      simpa using h

theorem dropWhile_eq_self_of_head {p : Char → Bool} {l : Str}
    (h : l = [] ∨ p (l.headD ' ') = false) : l.dropWhile p = l := by
  cases l with
  | nil => rfl
  | cons c cs =>
    rcases h with h | h
    · exact absurd h (by simp)
    · rw [List.headD_cons] at h
      rw [List.dropWhile_cons, if_neg (by simp [h])]

theorem rstripSlash_eq_self {s : Str} (h : s = [] ∨ s.reverse.headD ' ' ≠ '/') :
    rstripSlash s = s := by
  unfold rstripSlash
  rw [dropWhile_eq_self_of_head ?ha, List.reverse_reverse]
  case ha =>
    rcases h with h | h
    · subst h; exact Or.inl rfl
    · right
      simpa using h

theorem rstripSlash_noTrailing (s : Str) :
    rstripSlash s = [] ∨ (rstripSlash s).reverse.headD ' ' ≠ '/' := by
  unfold rstripSlash
  rw [List.reverse_reverse]
  rcases dropWhile_headD_or (fun c => c = '/') s.reverse with h | h
  · left; rw [h]; rfl
  · right
    simpa using h

theorem rstripSlash_decomp (s : Str) :
    ∃ t, s = rstripSlash s ++ t ∧ ∀ c ∈ t, c = '/' := by
  unfold rstripSlash
  refine ⟨(s.reverse.takeWhile (fun c => c = '/')).reverse, ?_, ?_⟩
  · rw [← List.reverse_append, List.takeWhile_append_dropWhile, List.reverse_reverse]
  · intro c hc
    rw [List.mem_reverse] at hc
    have h2 := List.mem_takeWhile_imp hc
    simpa using h2

theorem rstripSlash_suffix_eq {A D P : Str} (hP : P = A ++ D)
    (hnt : P = [] ∨ P.reverse.headD ' ' ≠ '/') : rstripSlash D = D := by
  apply rstripSlash_eq_self
  cases D with
  | nil => exact Or.inl rfl
  | cons c cs =>
    right
    rcases hnt with h | h
    · rw [hP] at h
      exact absurd h (by simp)
    · rw [hP, List.reverse_append] at h
      rwa [headD_append_of_ne_nil _ (by simp) _] at h

theorem forall_of_lowerStr_eq {s : Str} (h : lowerStr s = s) :
    ∀ c ∈ s, Char.toLower c = c := by
  induction s with
  | nil => intro c hc; exact absurd hc (List.not_mem_nil c)
  | cons x xs ih =>
    intro c hc
    unfold lowerStr at h
    rw [List.map_cons] at h
    injection h with h1 h2
    rcases List.mem_cons.mp hc with hc | hc
    · subst hc; exact h1
    · exact ih h2 c hc

theorem lowerStr_eq_self_of_forall {s : Str} (h : ∀ c ∈ s, Char.toLower c = c) :
    lowerStr s = s := by
  unfold lowerStr
  conv_rhs => rw [← List.map_id s]
  exact List.map_congr_left h

theorem lowerStr_eq_self_of_subset {s t : Str} (hsub : ∀ c ∈ s, c ∈ t)
    (ht : lowerStr t = t) : lowerStr s = s :=
  lowerStr_eq_self_of_forall (fun c hc => forall_of_lowerStr_eq ht c (hsub c hc))

theorem lowered_rstrip_lower (s : Str) :
    lowerStr (rstripSlash (lowerStr s)) = rstripSlash (lowerStr s) := by
  apply lowerStr_eq_self_of_subset (fun c hc => mem_rstripSlash hc)
  apply lowerStr_eq_self_of_forall
  intro c hc
  unfold lowerStr at hc
  rw [List.mem_map] at hc
  obtain ⟨a, _, he⟩ := hc
  rw [← he]
  exact toLower_toLower a

/-! ## Head and subset lemmas for the URL splitters -/

theorem splitFirst_fst_headD (d : Char) (s : Str) :
    (splitFirst d s).1 = [] ∨ (splitFirst d s).1.headD ' ' = s.headD ' ' := by
  rcases splitFirst_decomp d s with ⟨_, h2⟩ | ⟨b, _, h2⟩
  · right; rw [h2]
  · exact headD_of_append_eq h2.symm

theorem splitFirst_head_hit (d : Char) {s : Str} (hne : s ≠ []) (hd : s.headD ' ' = d) :
    (splitFirst d s).1 = [] := by
  cases s with
  | nil => exact absurd rfl hne
  | cons c cs =>
    rw [List.headD_cons] at hd
    subst hd
    simp [splitFirst]

theorem splitFirst_nil (d : Char) : splitFirst d [] = ([], none) := rfl

theorem lastSlashSplit_append (p : Str) :
    (lastSlashSplit p).1 ++ (lastSlashSplit p).2 = p := by
  unfold lastSlashSplit
  cases hs : spanNot ['/'] p.reverse with
  | mk ra rb =>
    have hd := spanNot_decomp ['/'] p.reverse
    rw [hs] at hd
    show rb.reverse ++ ra.reverse = p
    rw [← List.reverse_append, hd, List.reverse_reverse]

theorem lastSlashSplit_fst_ne_nil {p : Str} (h : '/' ∈ p) :
    (lastSlashSplit p).1 ≠ [] := by
  unfold lastSlashSplit
  cases hs : spanNot ['/'] p.reverse with
  | mk ra rb =>
    intro hnil
    have hrb : rb = [] := by
      have := congrArg List.reverse hnil
      rwa [List.reverse_reverse, List.reverse_nil] at this
    have hd := spanNot_decomp ['/'] p.reverse
    have hp := spanNot_fst_prop ['/'] p.reverse
    rw [hs] at hd hp
    rw [hrb, List.append_nil] at hd
    have hmem : '/' ∈ p.reverse := List.mem_reverse.mpr h
    rw [← hd] at hmem
    exact hp '/' hmem (List.mem_singleton.mpr rfl)

theorem lastSlashSplit_snd_subset (p : Str) :
    ∀ c ∈ (lastSlashSplit p).2, c ∈ p := by
  intro c hc
  have h := lastSlashSplit_append p
  rw [← h]
  exact List.mem_append_right _ hc

theorem lastSlashSplit_fst_subset (p : Str) :
    ∀ c ∈ (lastSlashSplit p).1, c ∈ p := by
  intro c hc
  have h := lastSlashSplit_append p
  rw [← h]
  exact List.mem_append_left _ hc

theorem splitparams1_fst_subset (p : Str) :
    ∀ c ∈ (splitparams1 p).1, c ∈ p := by
  intro c hc
  unfold splitparams1 at hc
  by_cases hm : '/' ∈ p
  · rw [if_pos hm] at hc
    cases hs : splitFirst ';' (lastSlashSplit p).2 with
    | mk a r =>
      rw [hs] at hc
      cases r with
      | none => exact hc
      | some ps =>
        simp only at hc
        rcases List.mem_append.mp hc with hc | hc
        · exact lastSlashSplit_fst_subset p c hc
        · have ha : c ∈ (splitFirst ';' (lastSlashSplit p).2).1 := by rw [hs]; exact hc
          exact lastSlashSplit_snd_subset p c (splitFirst_fst_subset ';' _ c ha)
  · rw [if_neg hm] at hc
    cases hs : splitFirst ';' p with
    | mk a r =>
      rw [hs] at hc
      cases r with
      | none => exact hc
      | some ps =>
        have ha : c ∈ (splitFirst ';' p).1 := by rw [hs]; exact hc
        exact splitFirst_fst_subset ';' p c ha

theorem splitparams1_fst_headD (p : Str) :
    (splitparams1 p).1 = [] ∨ (splitparams1 p).1.headD ' ' = p.headD ' ' := by
  unfold splitparams1
  by_cases hm : '/' ∈ p
  · rw [if_pos hm]
    cases hs : splitFirst ';' (lastSlashSplit p).2 with
    | mk a r =>
      cases r with
      | none => right; rfl
      | some ps =>
        right
        have hne := lastSlashSplit_fst_ne_nil hm
        rw [headD_append_of_ne_nil a hne ' ']
        have happ := lastSlashSplit_append p
        rcases headD_of_append_eq happ with h | h
        · exact absurd h hne
        · exact h
  · rw [if_neg hm]
    cases hs : splitFirst ';' p with
    | mk a r =>
      cases r with
      | none => right; rfl
      | some ps =>
        have h := splitFirst_fst_headD ';' p
        rw [hs] at h
        exact h

/-! ## Inversion facts for a successful parse -/

theorem schemeSplit_fst (url : Str) :
    (schemeSplit url).1 = [] ∨
      (((schemeSplit url).1.headD ' ').isAlpha = true ∧
        (schemeSplit url).1.all isSchemeChar = true ∧
        lowerStr (schemeSplit url).1 = (schemeSplit url).1) := by
  unfold schemeSplit
  by_cases hc : (spanNot [':'] url).2 ≠ [] ∧ (spanNot [':'] url).1 ≠ [] ∧
      ((spanNot [':'] url).1.headD ' ').isAlpha ∧ (spanNot [':'] url).1.all isSchemeChar
  · rw [if_pos hc]
    right
    refine ⟨?_, ?_, ?_⟩
    · show ((lowerStr (spanNot [':'] url).1).headD ' ').isAlpha = true
      rw [lowerStr_headD _ hc.2.1]
      exact isAlpha_toLower hc.2.2.1
    · exact lowerStr_all_scheme hc.2.2.2
    · exact lowerStr_idem _
  · rw [if_neg hc]
    exact Or.inl rfl

theorem netlocSplit_fst_prop (rest : Str) :
    ∀ c ∈ (netlocSplit rest).1, c ∉ ['/', '?', '#'] := by
  unfold netlocSplit
  by_cases hc : rest.take 2 = str "//"
  · rw [if_pos hc]
    exact spanNot_fst_prop _ _
  · rw [if_neg hc]
    intro c hcm
    exact absurd hcm (List.not_mem_nil c)

theorem netlocSplit_snd_headD (rest : Str) (h : (netlocSplit rest).1 ≠ []) :
    (netlocSplit rest).2 = [] ∨ (netlocSplit rest).2.headD ' ' ∈ ['/', '?', '#'] := by
  unfold netlocSplit at *
  by_cases hc : rest.take 2 = str "//"
  · rw [if_pos hc] at *
    exact spanNot_snd_head _ _
  · rw [if_neg hc] at h
    exact absurd rfl h

theorem splitOpt_fst (d : Char) (s : Str) : (splitOpt d s).1 = (splitFirst d s).1 := by
  unfold splitOpt
  cases hs : splitFirst d s with
  | mk a r =>
    cases r with
    | none => rfl
    | some t => rfl

theorem splitOpt_snd_subset (d : Char) (s : Str) :
    ∀ c ∈ (splitOpt d s).2, c ∈ s := by
  unfold splitOpt
  cases hs : splitFirst d s with
  | mk a r =>
    cases r with
    | none => intro c hc; exact absurd hc (List.not_mem_nil c)
    | some t =>
      intro c hc
      exact splitFirst_snd_subset d s (by rw [hs]) c hc

theorem splitOpt_chain_headD (s : Str)
    (h : s = [] ∨ s.headD ' ' ∈ ['/', '?', '#']) :
    (splitOpt '?' (splitOpt '#' s).1).1 = [] ∨
      (splitOpt '?' (splitOpt '#' s).1).1.headD ' ' = '/' := by
  rw [splitOpt_fst, splitOpt_fst]
  by_cases hs0 : s = []
  · left
    rw [hs0]
    rfl
  rcases h with h | h
  · exact absurd h hs0
  by_cases hf : (splitFirst '#' s).1 = []
  · left
    rw [hf]
    rfl
  have hfh : (splitFirst '#' s).1.headD ' ' = s.headD ' ' := by
    rcases splitFirst_fst_headD '#' s with h1 | h1
    · exact absurd h1 hf
    · exact h1
  rcases List.mem_cons.mp h with hd | hd
  · rcases splitFirst_fst_headD '?' (splitFirst '#' s).1 with h2 | h2
    · exact Or.inl h2
    · right
      rw [h2, hfh, hd]
  rcases List.mem_cons.mp hd with hd | hd
  · left
    exact splitFirst_head_hit '?' hf (hfh.trans hd)
  rcases List.mem_cons.mp hd with hd | hd
  · exact absurd (splitFirst_head_hit '#' hs0 hd) hf
  · exact absurd hd (List.not_mem_nil _)

theorem urlparse_ok_inv {u : Str} {pr : ParseResult} (h : urlparse u = .ok pr) :
    (pr.scheme = [] ∨
      ((pr.scheme.headD ' ').isAlpha = true ∧ pr.scheme.all isSchemeChar = true ∧
        lowerStr pr.scheme = pr.scheme))
    ∧ (∀ c ∈ pr.netloc, c ∉ ['/', '?', '#'])
    ∧ ¬ (('[' ∈ pr.netloc ∧ ']' ∉ pr.netloc) ∨ (']' ∈ pr.netloc ∧ '[' ∉ pr.netloc))
    ∧ '#' ∉ pr.path ∧ '?' ∉ pr.path
    ∧ '#' ∉ pr.query
    ∧ (pr.netloc ≠ [] → pr.path = [] ∨ pr.path.headD ' ' = '/') := by
  unfold urlparse at h
  dsimp only at h
  by_cases hbr : ('[' ∈ (netlocSplit (schemeSplit u).2).1 ∧
        ']' ∉ (netlocSplit (schemeSplit u).2).1) ∨
      (']' ∈ (netlocSplit (schemeSplit u).2).1 ∧ '[' ∉ (netlocSplit (schemeSplit u).2).1)
  · rw [if_pos hbr] at h
    exact absurd h (by simp)
  · rw [if_neg hbr] at h
    have hpr := Except.ok.inj h
    subst hpr
    dsimp only
    refine ⟨schemeSplit_fst u, netlocSplit_fst_prop _, hbr, ?_, ?_, ?_, ?_⟩
    · intro hm
      by_cases hpp : (schemeSplit u).1 ∈ uses_params ∧
          ';' ∈ (splitOpt '?' (splitOpt '#' (netlocSplit (schemeSplit u).2).2).1).1
      · rw [if_pos hpp] at hm
        have h1 := splitparams1_fst_subset _ '#' hm
        rw [splitOpt_fst] at h1
        have h2 := splitFirst_fst_subset '?' _ '#' h1
        rw [splitOpt_fst] at h2
        exact splitFirst_fst_not_mem '#' _ h2
      · rw [if_neg hpp] at hm
        dsimp only at hm
        rw [splitOpt_fst] at hm
        have h2 := splitFirst_fst_subset '?' _ '#' hm
        rw [splitOpt_fst] at h2
        exact splitFirst_fst_not_mem '#' _ h2
    · intro hm
      by_cases hpp : (schemeSplit u).1 ∈ uses_params ∧
          ';' ∈ (splitOpt '?' (splitOpt '#' (netlocSplit (schemeSplit u).2).2).1).1
      · rw [if_pos hpp] at hm
        have h1 := splitparams1_fst_subset _ '?' hm
        rw [splitOpt_fst] at h1
        exact splitFirst_fst_not_mem '?' _ h1
      · rw [if_neg hpp] at hm
        dsimp only at hm
        rw [splitOpt_fst] at hm
        exact splitFirst_fst_not_mem '?' _ hm
    · intro hm
      have h1 := splitOpt_snd_subset '?' _ '#' hm
      rw [splitOpt_fst] at h1
      exact splitFirst_fst_not_mem '#' _ h1
    · intro hn
      have hsnd := netlocSplit_snd_headD _ hn
      have hq1 := splitOpt_chain_headD _ hsnd
      by_cases hpp : (schemeSplit u).1 ∈ uses_params ∧
          ';' ∈ (splitOpt '?' (splitOpt '#' (netlocSplit (schemeSplit u).2).2).1).1
      · rw [if_pos hpp]
        rcases hq1 with h1 | h1
        · exact absurd (h1 ▸ hpp.2) (List.not_mem_nil ';')
        · rcases splitparams1_fst_headD
            (splitOpt '?' (splitOpt '#' (netlocSplit (schemeSplit u).2).2).1).1 with h2 | h2
          · exact Or.inl h2
          · right
            rw [h2, h1]
      · rw [if_neg hpp]
        exact hq1

/-! ## Query string round trip -/

/-- The `f"{k}={v}"` formatting of one query parameter. -/
def fmtPair (kv : Str × Str) : Str := kv.1 ++ '=' :: kv.2

theorem renderQuery_eq (d : List (Str × Str)) :
    renderQuery d = joinAmp ((List.insertionSort pairLe d).map fmtPair) := rfl

theorem mem_joinAmp {c : Char} :
    ∀ {ss : List Str}, c ∈ joinAmp ss → c = '&' ∨ ∃ s ∈ ss, c ∈ s := by
  intro ss
  induction ss with
  | nil => intro h; exact absurd h (List.not_mem_nil c)
  | cons x xs ih =>
    intro h
    cases xs with
    | nil =>
      right
      exact ⟨x, List.mem_singleton.mpr rfl, h⟩
    | cons y ys =>
      rw [show joinAmp (x :: y :: ys) = x ++ '&' :: joinAmp (y :: ys) from rfl] at h
      rcases List.mem_append.mp h with h | h
      · right
        exact ⟨x, List.mem_cons_self x _, h⟩
      · rcases List.mem_cons.mp h with h | h
        · exact Or.inl h
        · rcases ih h with h | ⟨s, hs, hcs⟩
          · exact Or.inl h
          · exact Or.inr ⟨s, List.mem_cons_of_mem x hs, hcs⟩

theorem splitAll_joinAmp {ss : List Str} (hne : ss ≠ [])
    (hfree : ∀ s ∈ ss, '&' ∉ s) : splitAll '&' (joinAmp ss) = ss := by
  induction ss with
  | nil => exact absurd rfl hne
  | cons x xs ih =>
    cases xs with
    | nil =>
      show splitAll '&' x = [x]
      exact splitAll_not_mem '&' (hfree x (List.mem_singleton.mpr rfl))
    | cons y ys =>
      show splitAll '&' (x ++ '&' :: joinAmp (y :: ys)) = x :: y :: ys
      rw [splitAll_upto '&' (hfree x (List.mem_cons_self x _)) _]
      rw [ih (by simp) (fun s hs => hfree s (List.mem_cons_of_mem x hs))]

theorem dictSet_append {d : List (Str × Str)} {k : Str} (v : Str)
    (h : k ∉ d.map Prod.fst) : dictSet d k v = d ++ [(k, v)] := by
  induction d with
  | nil => rfl
  | cons kv rest ih =>
    rw [List.map_cons] at h
    show (if kv.1 = k then (k, v) :: rest else kv :: dictSet rest k v) = kv :: rest ++ [(k, v)]
    rw [if_neg (fun hh => h (List.mem_cons.mpr (Or.inl hh.symm)))]
    rw [ih (fun hh => h (List.mem_cons_of_mem _ hh))]
    rw [List.cons_append]

theorem mem_dictSet {kv : Str × Str} {d : List (Str × Str)} {k v : Str}
    (h : kv ∈ dictSet d k v) : kv ∈ d ∨ kv = (k, v) := by
  induction d with
  | nil =>
    right
    simpa [dictSet] using h
  | cons kw rest ih =>
    unfold dictSet at h
    by_cases hk : kw.1 = k
    · rw [if_pos hk] at h
      rcases List.mem_cons.mp h with h | h
      · exact Or.inr h
      · exact Or.inl (List.mem_cons_of_mem kw h)
    · rw [if_neg hk] at h
      rcases List.mem_cons.mp h with h | h
      · exact Or.inl (h ▸ List.mem_cons_self kw rest)
      · rcases ih h with h | h
        · exact Or.inl (List.mem_cons_of_mem kw h)
        · exact Or.inr h

theorem collectParams_prov {kv : Str × Str} :
    ∀ {pieces : List Str} {d : List (Str × Str)}, kv ∈ collectParams pieces d →
      kv ∈ d ∨ ∃ piece ∈ pieces,
        splitFirst '=' piece = (kv.1, some kv.2) ∧ lowerStr kv.1 ∉ trackingParams := by
  intro pieces
  induction pieces with
  | nil =>
    intro d h
    exact Or.inl h
  | cons piece rest ih =>
    intro d h
    cases hs : splitFirst '=' piece with
    | mk a r =>
      simp only [collectParams, hs] at h
      cases r with
      | none =>
        rcases ih h with h | ⟨p, hp, he⟩
        · exact Or.inl h
        · exact Or.inr ⟨p, List.mem_cons_of_mem piece hp, he⟩
      | some v =>
        dsimp only at h
        by_cases ht : lowerStr a ∈ trackingParams
        · rw [if_pos ht] at h
          rcases ih h with h | ⟨p, hp, he⟩
          · exact Or.inl h
          · exact Or.inr ⟨p, List.mem_cons_of_mem piece hp, he⟩
        · rw [if_neg ht] at h
          rcases ih h with h | ⟨p, hp, he⟩
          · rcases mem_dictSet h with h | h
            · exact Or.inl h
            · refine Or.inr ⟨piece, List.mem_cons_self piece rest, ?_, ?_⟩
              · rw [hs, h]
              · rw [h]
                exact ht
          · exact Or.inr ⟨p, List.mem_cons_of_mem piece hp, he⟩

theorem collectParams_fmt :
    ∀ (M : List (Str × Str)) (d : List (Str × Str)), keysND (d ++ M) →
      (∀ kv ∈ M, lowerStr kv.1 ∉ trackingParams ∧ '=' ∉ kv.1) →
      collectParams (M.map fmtPair) d = d ++ M := by
  intro M
  induction M with
  | nil =>
    intro d _ _
    simp [collectParams]
  | cons kv M ih =>
    intro d hnd hp
    rw [List.map_cons]
    have hsp : splitFirst '=' (fmtPair kv) = (kv.1, some kv.2) :=
      splitFirst_upto '=' (hp kv (List.mem_cons_self kv M)).2 kv.2
    simp only [collectParams, hsp]
    rw [if_neg (hp kv (List.mem_cons_self kv M)).1]
    have hknot : kv.1 ∉ d.map Prod.fst := by
      intro hmem
      unfold keysND at hnd
      rw [List.map_append] at hnd
      rcases (List.nodup_append.mp hnd) with ⟨_, _, hdisj⟩
      exact hdisj hmem (by rw [List.map_cons]; exact List.mem_cons_self kv.1 _)
    rw [dictSet_append kv.2 hknot]
    have hnd2 : keysND ((d ++ [(kv.1, kv.2)]) ++ M) := by
      unfold keysND at *
      have : (d ++ [(kv.1, kv.2)]) ++ M = d ++ (kv.1, kv.2) :: M := by simp
      rw [this]
      have h2 : d ++ (kv.1, kv.2) :: M = d ++ kv :: M := by rw [show ((kv.1, kv.2) : Str × Str) = kv from rfl]
      rw [h2]
      exact hnd
    rw [ih (d ++ [(kv.1, kv.2)]) hnd2 (fun kw hkw => hp kw (List.mem_cons_of_mem kv hkw))]
    simp

theorem keysND_of_perm {l1 l2 : List (Str × Str)} (h : l1.Perm l2) (hnd : keysND l2) :
    keysND l1 := by
  unfold keysND at *
  exact ((h.map Prod.fst).nodup_iff).mpr hnd

theorem renderQuery_roundtrip (L : List (Str × Str)) (hnd : keysND L)
    (hp : ∀ kv ∈ L, lowerStr kv.1 ∉ trackingParams ∧ '=' ∉ kv.1 ∧ '&' ∉ kv.1 ∧ '&' ∉ kv.2) :
    renderQuery (collectParams (splitAll '&' (renderQuery L)) []) = renderQuery L := by
  have hperm : (List.insertionSort pairLe L).Perm L := List.perm_insertionSort pairLe L
  by_cases hL : L = []
  · subst hL
    rfl
  · have hMne : List.insertionSort pairLe L ≠ [] := by
      intro h0
      apply hL
      have h1 := hperm
      rw [h0] at h1
      exact (h1.symm).eq_nil
    have hmemL : ∀ kw ∈ List.insertionSort pairLe L, kw ∈ L := fun kw hkw =>
      hperm.mem_iff.mp hkw
    have hfree : ∀ s ∈ (List.insertionSort pairLe L).map fmtPair, '&' ∉ s := by
      intro s hs hmem
      rw [List.mem_map] at hs
      obtain ⟨kw, hkw, he⟩ := hs
      rw [← he] at hmem
      unfold fmtPair at hmem
      rcases List.mem_append.mp hmem with h | h
      · exact (hp kw (hmemL kw hkw)).2.2.1 h
      · rcases List.mem_cons.mp h with h | h
        · exact absurd h (by decide)
        · exact (hp kw (hmemL kw hkw)).2.2.2 h
    rw [renderQuery_eq L, splitAll_joinAmp (by simpa using hMne) hfree]
    have hnds : keysND ([] ++ List.insertionSort pairLe L) := by
      rw [List.nil_append]
      exact keysND_of_perm hperm hnd
    rw [collectParams_fmt (List.insertionSort pairLe L) [] hnds
      (fun kw hkw => ⟨(hp kw (hmemL kw hkw)).1, (hp kw (hmemL kw hkw)).2.1⟩)]
    rw [List.nil_append]
    rw [renderQuery_eq]
    rw [insertionSort_eq_of_perm hperm]

theorem mem_renderQuery {c : Char} {L : List (Str × Str)} (h : c ∈ renderQuery L) :
    c = '&' ∨ c = '=' ∨ ∃ kv ∈ L, c ∈ kv.1 ∨ c ∈ kv.2 := by
  rw [renderQuery_eq] at h
  rcases mem_joinAmp h with h | ⟨s, hs, hcs⟩
  · exact Or.inl h
  · rw [List.mem_map] at hs
    obtain ⟨kv, hkv, he⟩ := hs
    rw [← he] at hcs
    unfold fmtPair at hcs
    rcases List.mem_append.mp hcs with h2 | h2
    · exact Or.inr (Or.inr ⟨kv, (List.perm_insertionSort pairLe L).mem_iff.mp hkv, Or.inl h2⟩)
    · rcases List.mem_cons.mp h2 with h2 | h2
      · exact Or.inr (Or.inl h2)
      · exact Or.inr (Or.inr ⟨kv, (List.perm_insertionSort pairLe L).mem_iff.mp hkv, Or.inr h2⟩)

theorem collectParams_splitAll_facts {kv : Str × Str} {q : Str}
    (h : kv ∈ collectParams (splitAll '&' q) []) :
    (lowerStr kv.1 ∉ trackingParams ∧ '=' ∉ kv.1 ∧ '&' ∉ kv.1 ∧ '&' ∉ kv.2)
    ∧ (∀ c ∈ kv.1, c ∈ q) ∧ (∀ c ∈ kv.2, c ∈ q) := by
  rcases collectParams_prov h with h | ⟨piece, hpc, hsp, hnt⟩
  · exact absurd h (List.not_mem_nil kv)
  · have hk_sub : ∀ c ∈ kv.1, c ∈ piece := by
      intro c hc
      have : c ∈ (splitFirst '=' piece).1 := by rw [hsp]; exact hc
      exact splitFirst_fst_subset '=' piece c this
    have hv_sub : ∀ c ∈ kv.2, c ∈ piece := by
      intro c hc
      exact splitFirst_snd_subset '=' piece (by rw [hsp]) c hc
    have hq : ∀ c ∈ piece, c ∈ q ∧ c ≠ '&' := mem_of_mem_splitAll '&' q piece hpc
    refine ⟨⟨hnt, ?_, ?_, ?_⟩, ?_, ?_⟩
    · intro hm
      have : '=' ∈ (splitFirst '=' piece).1 := by rw [hsp]; exact hm
      exact splitFirst_fst_not_mem '=' piece this
    · intro hm
      exact (hq '&' (hk_sub '&' hm)).2 rfl
    · intro hm
      exact (hq '&' (hv_sub '&' hm)).2 rfl
    · exact fun c hc => (hq c (hk_sub c hc)).1
    · exact fun c hc => (hq c (hv_sub c hc)).1

/-! ## Reparsing a rebuilt URL -/


theorem lowerStr_not_mem_special {d : Char}
    (hd : ¬ (65 ≤ d.toNat ∧ d.toNat ≤ 90)) (hd2 : ¬ (97 ≤ d.toNat ∧ d.toNat ≤ 122))
    {s : Str} (h : d ∉ s) : d ∉ lowerStr s := by
  intro hm
  exact h ((mem_lowerStr hd hd2 s).mp hm)

theorem splitOpt_not_mem (d : Char) {s : Str} (h : d ∉ s) : splitOpt d s = (s, []) := by
  unfold splitOpt
  rw [splitFirst_not_mem d h]

theorem splitOpt_upto (d : Char) {a : Str} (ha : d ∉ a) (b : Str) :
    splitOpt d (a ++ d :: b) = (a, b) := by
  unfold splitOpt
  rw [splitFirst_upto d ha b]

theorem schemeSplit_rebuilt (S : Str) (hS : S ≠ []) (hA : (S.headD ' ').isAlpha = true)
    (hC : S.all isSchemeChar = true) (hL : lowerStr S = S) (rest : Str) :
    schemeSplit (S ++ ':' :: rest) = (S, rest) := by
  have hsp : spanNot [':'] (S ++ ':' :: rest) = (S, ':' :: rest) :=
    spanNot_upto [':']
      (fun c hc hmem => colon_not_mem_of_scheme hC
        ((List.mem_singleton.mp hmem) ▸ hc))
      (List.mem_singleton.mpr rfl) rest
  unfold schemeSplit
  rw [hsp]
  dsimp only
  rw [if_pos ⟨by simp, hS, hA, hC⟩]
  rw [hL]
  rfl

theorem netlocSplit_rebuilt (W : Str) :
    netlocSplit ('/' :: '/' :: W) = spanNot ['/', '?', '#'] W := by
  unfold netlocSplit
  rw [if_pos (show List.take 2 ('/' :: '/' :: W) = str "//" from rfl)]
  rfl

theorem urlparse_rebuilt_error (S : Str) (hS : S ≠ []) (hA : (S.headD ' ').isAlpha = true)
    (hC : S.all isSchemeChar = true) (hL : lowerStr S = S) (W : Str)
    (hbr : ('[' ∈ (spanNot ['/', '?', '#'] W).1 ∧ ']' ∉ (spanNot ['/', '?', '#'] W).1) ∨
      (']' ∈ (spanNot ['/', '?', '#'] W).1 ∧ '[' ∉ (spanNot ['/', '?', '#'] W).1)) :
    urlparse (S ++ ':' :: '/' :: '/' :: W) = .error (str "Invalid IPv6 URL") := by
  unfold urlparse
  rw [schemeSplit_rebuilt S hS hA hC hL ('/' :: '/' :: W)]
  dsimp only
  rw [netlocSplit_rebuilt W]
  rw [if_pos hbr]

theorem urlparse_rebuilt (S : Str) (hS : S ≠ []) (hA : (S.headD ' ').isAlpha = true)
    (hC : S.all isSchemeChar = true) (hL : lowerStr S = S)
    (W N₂ R₂ : Str) (hspan : spanNot ['/', '?', '#'] W = (N₂, R₂))
    (hbr : ¬ (('[' ∈ N₂ ∧ ']' ∉ N₂) ∨ (']' ∈ N₂ ∧ '[' ∉ N₂)))
    (D Q : Str) (hR : R₂ = D ++ (if Q = [] then [] else '?' :: Q))
    (hD1 : '#' ∉ D) (hD2 : '?' ∉ D) (hD3 : ';' ∉ D) (hQ : '#' ∉ Q) :
    urlparse (S ++ ':' :: '/' :: '/' :: W) = .ok ⟨S, N₂, D, [], Q, []⟩ := by
  unfold urlparse
  rw [schemeSplit_rebuilt S hS hA hC hL ('/' :: '/' :: W)]
  dsimp only
  rw [netlocSplit_rebuilt W, hspan]
  dsimp only
  rw [if_neg hbr]
  have hR2free : '#' ∉ R₂ := by
    rw [hR]
    intro hm
    rcases List.mem_append.mp hm with hm | hm
    · exact hD1 hm
    · by_cases hQe : Q = []
      · rw [if_pos hQe] at hm
        exact absurd hm (List.not_mem_nil _)
      · rw [if_neg hQe] at hm
        rcases List.mem_cons.mp hm with hm | hm
        · exact absurd hm (by decide)
        · exact hQ hm
  rw [splitOpt_not_mem '#' hR2free]
  dsimp only
  by_cases hQe : Q = []
  · rw [hR, if_pos hQe, List.append_nil]
    rw [splitOpt_not_mem '?' hD2]
    dsimp only
    rw [if_neg (fun hb => hD3 hb.2)]
    rw [hQe]
  · rw [hR, if_neg hQe]
    rw [splitOpt_upto '?' hD2 Q]
    dsimp only
    rw [if_neg (fun hb => hD3 hb.2)]

/-- C9 (corrected): `normalize_url` is idempotent on every URL that parses
with a nonempty scheme and whose parsed path contains no semicolon; the
original unconditional statement fails (see the counterexample) because
scheme-less URLs grow a `://` prefix on every pass and `;parameters` of the
last path segment are re-split on the second pass. -/
theorem claim_C9_normalize_idempotent (u : Str) (pr : ParseResult)
    (h : urlparse u = .ok pr) (hs : pr.scheme ≠ []) (hsemi : ';' ∉ pr.path) :
    normalize_url (normalize_url u) = normalize_url u := by
  obtain ⟨hsch, hnl, hbr, hpa1, hpa2, hqh, hphead⟩ := urlparse_ok_inv h
  rcases hsch with h0 | ⟨hA, hC, hLo⟩
  · exact absurd h0 hs
  have hstr : str "://" = ':' :: '/' :: '/' :: ([] : Str) := rfl
  have hnu : normalize_url u = pr.scheme ++ str "://" ++ lowerStr pr.netloc ++
      rstripSlash (lowerStr pr.path) ++
      (if renderQuery (collectParams (splitAll '&' pr.query) []) = [] then []
       else '?' :: renderQuery (collectParams (splitAll '&' pr.query) [])) := by
    unfold normalize_url
    rw [h]
  -- path facts
  have hPsubT : ∀ c ∈ rstripSlash (lowerStr pr.path), c ∈ lowerStr pr.path :=
    fun c hc => mem_rstripSlash hc
  have hPl : lowerStr (rstripSlash (lowerStr pr.path)) = rstripSlash (lowerStr pr.path) :=
    lowered_rstrip_lower pr.path
  have hPr : rstripSlash (rstripSlash (lowerStr pr.path)) = rstripSlash (lowerStr pr.path) :=
    rstripSlash_idem _
  have hPnt := rstripSlash_noTrailing (lowerStr pr.path)
  have hDsemi : ';' ∉ rstripSlash (lowerStr pr.path) := fun hm =>
    lowerStr_not_mem_special (by decide) (by decide) hsemi (hPsubT ';' hm)
  have hDq : '?' ∉ rstripSlash (lowerStr pr.path) := fun hm =>
    lowerStr_not_mem_special (by decide) (by decide) hpa2 (hPsubT '?' hm)
  have hDh : '#' ∉ rstripSlash (lowerStr pr.path) := fun hm =>
    lowerStr_not_mem_special (by decide) (by decide) hpa1 (hPsubT '#' hm)
  have hPhead : pr.netloc ≠ [] → rstripSlash (lowerStr pr.path) = [] ∨
      (rstripSlash (lowerStr pr.path)).headD ' ' = '/' := by
    intro hn
    rcases hphead hn with h1 | h1
    · left
      rw [h1]
      rfl
    · have hpne : pr.path ≠ [] := by
        intro h2
        rw [h2] at h1
        exact absurd h1 (by decide)
      have hTh : (lowerStr pr.path).headD ' ' = '/' := by
        rw [lowerStr_headD pr.path hpne, h1]
        decide
      obtain ⟨t, hT, _⟩ := rstripSlash_decomp (lowerStr pr.path)
      rcases headD_of_append_eq hT.symm with h2 | h2
      · exact Or.inl h2
      · right
        rw [h2, hTh]
  -- query facts
  have hQfacts : ∀ kv ∈ collectParams (splitAll '&' pr.query) [],
      lowerStr kv.1 ∉ trackingParams ∧ '=' ∉ kv.1 ∧ '&' ∉ kv.1 ∧ '&' ∉ kv.2 :=
    fun kv hkv => (collectParams_splitAll_facts hkv).1
  have hQrt : renderQuery (collectParams (splitAll '&'
      (renderQuery (collectParams (splitAll '&' pr.query) []))) []) =
      renderQuery (collectParams (splitAll '&' pr.query) []) :=
    renderQuery_roundtrip _ (keysND_collectParams _ [] List.nodup_nil) hQfacts
  have hQhash : '#' ∉ renderQuery (collectParams (splitAll '&' pr.query) []) := by
    intro hm
    rcases mem_renderQuery hm with h1 | h1 | ⟨kv, hkv, hin⟩
    · exact absurd h1 (by decide)
    · exact absurd h1 (by decide)
    · obtain ⟨_, hk, hv⟩ := collectParams_splitAll_facts hkv
      rcases hin with hin | hin
      · exact hqh (hk '#' hin)
      · exact hqh (hv '#' hin)
  -- netloc facts
  have hNidem : lowerStr (lowerStr pr.netloc) = lowerStr pr.netloc := lowerStr_idem pr.netloc
  have hNclean : ∀ c ∈ lowerStr pr.netloc, c ∉ ['/', '?', '#'] := by
    intro c hc hmem
    unfold lowerStr at hc
    rw [List.mem_map] at hc
    obtain ⟨c0, hc0, he⟩ := hc
    have hc0d : c0 ∉ ['/', '?', '#'] := hnl c0 hc0
    apply hc0d
    rcases List.mem_cons.mp hmem with hm | hm
    · subst hm
      rw [(toLower_eq_iff (by decide) (by decide) c0).mp he]
      decide
    · rcases List.mem_cons.mp hm with hm2 | hm2
      · subst hm2
        rw [(toLower_eq_iff (by decide) (by decide) c0).mp he]
        decide
      · rcases List.mem_cons.mp hm2 with hm3 | hm3
        · subst hm3
          rw [(toLower_eq_iff (by decide) (by decide) c0).mp he]
          decide
        · exact absurd hm3 (List.not_mem_nil c)
  have hbrN : ¬ (('[' ∈ lowerStr pr.netloc ∧ ']' ∉ lowerStr pr.netloc) ∨
      (']' ∈ lowerStr pr.netloc ∧ '[' ∉ lowerStr pr.netloc)) := by
    intro hcon
    apply hbr
    rcases hcon with ⟨h1, h2⟩ | ⟨h1, h2⟩
    · exact Or.inl ⟨(mem_lowerStr (by decide) (by decide) _).mp h1,
        fun hm => h2 ((mem_lowerStr (by decide) (by decide) _).mpr hm)⟩
    · exact Or.inr ⟨(mem_lowerStr (by decide) (by decide) _).mp h1,
        fun hm => h2 ((mem_lowerStr (by decide) (by decide) _).mpr hm)⟩
  rw [hnu]
  set Qv := renderQuery (collectParams (splitAll '&' pr.query) []) with hQvdef
  set Pv := rstripSlash (lowerStr pr.path) with hPvdef
  set Nv := lowerStr pr.netloc with hNvdef
  by_cases hnet : pr.netloc = []
  · -- empty netloc: the reconstructed string re-splits inside the old path
    have hNnil : Nv = [] := by rw [hNvdef, hnet]; rfl
    rw [hNnil]
    cases hsp : spanNot ['/', '?', '#'] (Pv ++ (if Qv = [] then [] else '?' :: Qv)) with
    | mk A1 B1 =>
      have hdec := spanNot_decomp ['/', '?', '#'] (Pv ++ (if Qv = [] then [] else '?' :: Qv))
      rw [hsp] at hdec
      have hclean := spanNot_fst_prop ['/', '?', '#'] (Pv ++ (if Qv = [] then [] else '?' :: Qv))
      rw [hsp] at hclean
      dsimp only at hdec hclean
      obtain ⟨D, hPD, hB1⟩ : ∃ D, Pv = A1 ++ D ∧ B1 = D ++ (if Qv = [] then [] else '?' :: Qv) := by
        rcases List.append_eq_append_iff.mp hdec with ⟨a', h1, h2⟩ | ⟨c', h1, h2⟩
        · exact ⟨a', h1, h2⟩
        · cases c' with
          | nil =>
            rw [List.append_nil] at h1
            rw [List.nil_append] at h2
            exact ⟨[], by rw [h1, List.append_nil], by rw [List.nil_append]; exact h2.symm⟩
          | cons x t =>
            exfalso
            by_cases hQe : Qv = []
            · rw [if_pos hQe] at h2
              exact absurd h2 (by simp)
            · rw [if_neg hQe, List.cons_append] at h2
              injection h2 with hx htail
              apply hclean '?' _ (by decide)
              rw [h1, ← hx]
              exact List.mem_append_right Pv (List.mem_cons_self '?' t)
      have hshape : pr.scheme ++ str "://" ++ [] ++ Pv ++ (if Qv = [] then [] else '?' :: Qv) =
          pr.scheme ++ ':' :: '/' :: '/' :: (Pv ++ (if Qv = [] then [] else '?' :: Qv)) := by
        rw [hstr]
        simp [List.append_assoc]
      rw [hshape]
      by_cases hbrA : ('[' ∈ A1 ∧ ']' ∉ A1) ∨ (']' ∈ A1 ∧ '[' ∉ A1)
      · have herr := urlparse_rebuilt_error pr.scheme hs hA hC hLo
          (Pv ++ (if Qv = [] then [] else '?' :: Qv)) (by rw [hsp]; exact hbrA)
        unfold normalize_url
        rw [herr]
      · have hD1 : '#' ∉ D := fun hm => hDh (by rw [hPD]; exact List.mem_append_right A1 hm)
        have hD2 : '?' ∉ D := fun hm => hDq (by rw [hPD]; exact List.mem_append_right A1 hm)
        have hD3 : ';' ∉ D := fun hm => hDsemi (by rw [hPD]; exact List.mem_append_right A1 hm)
        have hA1l : lowerStr A1 = A1 := lowerStr_eq_self_of_subset
          (fun c hc => by rw [hPD]; exact List.mem_append_left D hc) hPl
        have hDl : lowerStr D = D := lowerStr_eq_self_of_subset
          (fun c hc => by rw [hPD]; exact List.mem_append_right A1 hc) hPl
        have hDr : rstripSlash D = D := rstripSlash_suffix_eq hPD hPnt
        have hok := urlparse_rebuilt pr.scheme hs hA hC hLo
          (Pv ++ (if Qv = [] then [] else '?' :: Qv)) A1 B1 hsp hbrA D Qv hB1 hD1 hD2 hD3 hQhash
        unfold normalize_url
        rw [hok]
        dsimp only
        rw [hA1l, hDl, hDr, hQrt]
        rw [hstr, hPD]
        simp [List.append_assoc]
  · -- nonempty netloc: the reconstructed string re-splits at the same places
    have hPQ : Pv ++ (if Qv = [] then [] else '?' :: Qv) = [] ∨
        ∃ d b, d ∈ ['/', '?', '#'] ∧ Pv ++ (if Qv = [] then [] else '?' :: Qv) = d :: b := by
      rcases hPhead hnet with h1 | h1
      · by_cases hQe : Qv = []
        · left
          rw [h1, if_pos hQe]
          rfl
        · right
          exact ⟨'?', Qv, by decide, by rw [h1, if_neg hQe]; rfl⟩
      · have hPne : Pv ≠ [] := by
          intro h2
          rw [h2] at h1
          exact absurd h1 (by decide)
        obtain ⟨c, t, hct⟩ := List.exists_cons_of_ne_nil hPne
        right
        refine ⟨'/', t ++ (if Qv = [] then [] else '?' :: Qv), by decide, ?_⟩
        rw [hct, List.cons_append]
        rw [hct, List.headD_cons] at h1
        rw [h1]
    have hspanA : spanNot ['/', '?', '#'] (Nv ++ (Pv ++ (if Qv = [] then [] else '?' :: Qv))) =
        (Nv, Pv ++ (if Qv = [] then [] else '?' :: Qv)) := by
      rcases hPQ with h1 | ⟨d, b, hd, he⟩
      · rw [h1, List.append_nil]
        rw [spanNot_clean _ hNclean]
      · rw [he]
        exact spanNot_upto _ hNclean hd b
    have hok := urlparse_rebuilt pr.scheme hs hA hC hLo
      (Nv ++ (Pv ++ (if Qv = [] then [] else '?' :: Qv))) Nv
      (Pv ++ (if Qv = [] then [] else '?' :: Qv)) hspanA hbrN Pv Qv rfl hDh hDq hDsemi hQhash
    have hshapeA : pr.scheme ++ str "://" ++ Nv ++ Pv ++ (if Qv = [] then [] else '?' :: Qv) =
        pr.scheme ++ ':' :: '/' :: '/' :: (Nv ++ (Pv ++ (if Qv = [] then [] else '?' :: Qv))) := by
      rw [hstr]
      simp [List.append_assoc]
    rw [hshapeA]
    unfold normalize_url
    rw [hok]
    dsimp only
    rw [hNidem, hPl, hPr, hQrt]
    rw [hstr]
    simp [List.append_assoc]

/-- C9 counterexample: normalization is not idempotent in general. A
scheme-less URL gains a fresh `://` prefix on every pass, and a path whose
last segment contains `;` keeps the `;suffix` on the first pass (the
original path has a trailing slash, so the last segment is empty) but has
it split off as `params` on the second pass. -/
theorem claim_C9_counterexample :
    normalize_url (normalize_url (str "example.com/path")) ≠
      normalize_url (str "example.com/path")
    ∧ normalize_url (normalize_url (str "http://H/A;X/")) ≠
      normalize_url (str "http://H/A;X/") := by
  decide

theorem claim_C9_witness :
    normalize_url (normalize_url (str "http://Ex.COM/A/B/?b=2&utm_source=x&a=1")) =
      normalize_url (str "http://Ex.COM/A/B/?b=2&utm_source=x&a=1") :=
  claim_C9_normalize_idempotent (str "http://Ex.COM/A/B/?b=2&utm_source=x&a=1")
    ⟨str "http", str "Ex.COM", str "/A/B/", [], str "b=2&utm_source=x&a=1", []⟩
    rfl (by decide) (by decide)
